import Mathlib

/-!
Verification development for the Othello engine (`othelloplayer.py`).

The board is a list of rows of integer cells (`0` empty, `1` white, `2` black),
exactly as the Python code stores `self.board`.  Coordinates are `(x, y)` pairs
of integers; `board[y][x]` is the cell at `(x, y)`.  The Python `while True`
scan of `get_flipped` is modelled with explicit fuel: a result of `none` means
the loop did not reach one of its `break` statements within the given number of
iterations (for the configurations reachable from the game code the fuel is
shown to be sufficient).  The floating point values used by `negamax` are
only ever `-inf`, `+inf`, integers, negations, `max` and comparisons, so they
are modelled by `WithBot (WithTop Int)`.
-/

set_option maxHeartbeats 1000000

namespace OthelloGame

/-- A coordinate `(x, y)`, matching the Python location tuples. -/
abbrev Coord : Type := Int × Int

/-- The game grid, matching `self.board : list[list[int]]`. -/
abbrev Board : Type := List (List Int)

/-- `len(self.board[0])`, the width used by `is_on_board` (length of row 0). -/
def boardWidth (b : Board) : Nat := (b.headD []).length

/-- `len(self.board)`, the number of rows. -/
def boardHeight (b : Board) : Nat := b.length

/-- `Othello.is_on_board`: `location[0] >= 0 and location[1] >= 0 and
location[1] + 1 <= len(self.board) and location[0] + 1 <= len(self.board[0])`. -/
def is_on_board (b : Board) (l : Coord) : Bool :=
  decide (0 ≤ l.1 ∧ 0 ≤ l.2 ∧ l.2 + 1 ≤ (boardHeight b : Int) ∧ l.1 + 1 ≤ (boardWidth b : Int))

/-- Read `self.board[location[1]][location[0]]`.  In the Python code every read
is guarded by `is_on_board`, so the default values are never relevant there. -/
def cell (b : Board) (l : Coord) : Int :=
  (b.getD l.2.toNat []).getD l.1.toNat 0

/-- Write `self.board[location[1]][location[0]] = v` (in-place in Python; here
the updated grid value). -/
def setCell (b : Board) (l : Coord) (v : Int) : Board :=
  b.set l.2.toNat ((b.getD l.2.toNat []).set l.1.toNat v)

/-- The inner `for cell in row: if cell == player: value += 1` loop of
`get_state_value`. -/
def rowCount (p : Int) : List Int → Nat
  | [] => 0
  | c :: cs => (if c = p then 1 else 0) + rowCount p cs

/-- `Othello.get_state_value`: the number of cells holding `p`. -/
def get_state_value (b : Board) (p : Int) : Nat :=
  (b.map fun row => rowCount p row).sum

/-- A well-formed grid as assumed by the spec's data model: at least one row,
and every row as long as row 0 (the Python code indexes `board[y][x]` for any
`x < len(board[0])`, which requires exactly this). -/
def WF (b : Board) : Prop :=
  b ≠ [] ∧ ∀ row ∈ b, row.length = boardWidth b

/-- One direction of the `get_flipped` scan: the `while True` loop starting at
`loc` and advancing by `d` each round, with explicit fuel.  `none`: the loop
performed `fuel` rounds without reaching a `break`.  `some none`: the loop hit
`break` after clearing `flip` (ran off the board, or reached an empty cell), so
the direction contributes nothing.  `some (some l)`: the loop hit the
`tile == player` break, and `l` is the list the direction contributes. -/
def walk (b : Board) (p : Int) (d : Coord) : Coord → Nat → Option (Option (List Coord))
  | _, 0 => none
  | loc, fuel + 1 =>
    if is_on_board b loc = false then some none
    else if cell b loc = 0 then some none
    else if cell b loc = p then some (some [])
    else (walk b p d (loc.1 + d.1, loc.2 + d.2) fuel).map (Option.map (loc :: ·))

/-- Fuel that is shown (below) to be enough for every direction other than the
stationary `(0, 0)` one: such a walk runs off the board after at most
`width + height + 1` steps. -/
def walkFuel (b : Board) : Nat := boardWidth b + boardHeight b + 2

/-- The offsets visited by `for x in range(-1, 2): for y in range(-1, 2)`, in
iteration order.  Note the Python loop does not skip the `(0, 0)` offset. -/
def dirList : List Coord :=
  [(-1, -1), (-1, 0), (-1, 1), (0, -1), (0, 0), (0, 1), (1, -1), (1, 0), (1, 1)]

/-- The contribution of one offset `d`: the loop starts at
`temp_loc = (location[0] + x, location[1] + y)`. -/
def dirWalk (b : Board) (p : Int) (loc d : Coord) : Option (List Coord) :=
  match walk b p d (loc.1 + d.1, loc.2 + d.2) (walkFuel b) with
  | none => none
  | some none => some []
  | some (some l) => some l

/-- Concatenate the contributions of the offsets (`flipped.extend(flip)`); if
any direction fails to terminate the whole call fails to terminate. -/
def collectDirs (b : Board) (p : Int) (loc : Coord) : List Coord → Option (List Coord)
  | [] => some []
  | d :: ds =>
    match dirWalk b p loc d, collectDirs b p loc ds with
    | some l, some r => some (l ++ r)
    | _, _ => none

/-- `Othello.get_flipped`, with `none` marking a non-terminating call. -/
def get_flippedF (b : Board) (p : Int) (loc : Coord) : Option (List Coord) :=
  collectDirs b p loc dirList

/-- The flip list of `get_flipped` on the configurations where the Python call
terminates (everywhere the game code calls it, shown below). -/
def get_flipped (b : Board) (p : Int) (loc : Coord) : List Coord :=
  (get_flippedF b p loc).getD []

/-- `Othello._get_available_moves`: empty cells whose flip list is nonempty,
collected in row-major scan order (`y` outer, `x` inner, appending `(x, y)`). -/
def get_available_moves (b : Board) (p : Int) : List Coord :=
  (List.range (boardHeight b)).flatMap fun (y : Nat) =>
    (List.range (boardWidth b)).filterMap fun (x : Nat) =>
      if cell b ((x : Int), (y : Int)) = 0 ∧ get_flipped b p ((x : Int), (y : Int)) ≠ [] then
        some ((x : Int), (y : Int))
      else none

/-- `Othello.play_move`: place the token, then flip the computed list (the
Python code computes `get_flipped` after the placement write). -/
def play_move (b : Board) (loc : Coord) (p : Int) : Board :=
  let b1 := setCell b loc p
  (get_flipped b1 p loc).foldl (fun bb f => setCell bb f p) b1

/-- The deep copy `[[x for x in row] for row in board]` made by the
constructor: fresh outer and inner lists with the same cell values. -/
def copy_board (b : Board) : Board := b.map fun row => row.map id

/-- The starting grid built by the constructor when only a width is given. -/
def init_board (w : Nat) : Board :=
  let m : Int := (w : Int) / 2 - 1
  let z : Board := List.replicate w (List.replicate w 0)
  setCell (setCell (setCell (setCell z (m, m) 1) (m + 1, m + 1) 1) (m, m + 1) 2) (m + 1, m) 2

/-- `Othello.get_children`: one copied, post-move board per available move. -/
def get_children (b : Board) (p : Int) : List Board :=
  (get_available_moves b p).map fun m => play_move (copy_board b) m p

/-- `Othello._is_state_terminal`, following the source's early returns. -/
def is_state_terminal (b : Board) : Bool :=
  if get_state_value b 0 = 0 then true
  else if get_available_moves b 1 ≠ [] then false
  else if get_available_moves b 2 ≠ [] then false
  else true

/-- `get_location_type(location, board_width)`: corners score 3, edges 2,
interior 1. -/
def get_location_type (l : Coord) (w : Nat) : Nat :=
  if (l.1 = 0 ∨ l.1 = (w : Int) - 1) ∧ (l.2 = 0 ∨ l.2 = (w : Int) - 1) then 3
  else if (l.1 = 0 ∨ l.1 = (w : Int) - 1) ∨ (l.2 = 0 ∨ l.2 = (w : Int) - 1) then 2
  else 1

/-- The score domain of `negamax`: the integers together with
`-float("inf")` and `float("inf")`. -/
abbrev Score : Type := WithBot (WithTop Int)

/-- An integer disc count as a score. -/
def scoreOfVal (n : Nat) : Score := (((n : Int) : WithTop Int) : Score)

/-- Unary minus on scores (the only arithmetic `negamax` performs). -/
def sneg : Score → Score
  | ⊥ => ⊤
  | some none => ⊥
  | some (some n) => some (some (-n))

/-- `players = {1: 2, 2: 1}`: the opponent lookup used by `negamax`. -/
def other_player (p : Int) : Int := if p = 1 then 2 else 1

/-- The `for child in children` loop of `negamax`: `f c x` is the recursive
call on child `c` with upper window argument `x` (the lower one, `-b`, is
fixed by `beta`).  `best` and `a` are threaded exactly as in the source; with
`pr = true` the loop breaks once `a >= b`. -/
def abLoop (pr : Bool) (beta : Score) (f : Board → Score → Score) :
    List Board → Score → Score → Score
  | [], _, best => best
  | c :: cs, a, best =>
    let v := f c (sneg a)
    let best2 := max best v
    if pr then
      let a2 := max a v
      if beta ≤ a2 then best2 else abLoop pr beta f cs a2 best2
    else abLoop pr beta f cs a best2

/-- `Othello.negamax` with the children visited in the order `get_children`
produces them (the identity shuffle).  The relation `NegamaxR` below covers
every other visitation order `random.shuffle` can produce. -/
def negamax : Nat → Bool → Board → Int → Score → Score → Score
  | 0, _, b, p, _, _ => scoreOfVal (get_state_value b p)
  | d + 1, pr, b, p, a, beta =>
    if is_state_terminal b then scoreOfVal (get_state_value b p)
    else
      sneg (abLoop pr beta (fun c x => negamax d pr c (other_player p) (sneg beta) x)
        (get_children b (other_player p)) a ⊥)

/-- The full-width reference value: plain maximisation over all children, no
window, canonical child order. -/
def listMax (l : List Score) : Score := l.foldr max ⊥

/-- Full-width negamax value (the claims' "full-width negamax"). -/
def negamaxFW : Nat → Board → Int → Score
  | 0, b, p => scoreOfVal (get_state_value b p)
  | d + 1, b, p =>
    if is_state_terminal b then scoreOfVal (get_state_value b p)
    else sneg (listMax ((get_children b (other_player p)).map fun c => negamaxFW d c (other_player p)))

/-- The child loop of `negamax` as a relation: `step c x w` holds when the
recursive call on child `c`, made while the loop's `a` variable equals `x`,
may return `w`. -/
inductive LoopP (pr : Bool) (beta : Score) (step : Board → Score → Score → Prop) :
    List Board → Score → Score → Score → Prop
  | nil : ∀ a best, LoopP pr beta step [] a best best
  | stop : ∀ c cs a best v, pr = true → step c a v → beta ≤ max a v →
      LoopP pr beta step (c :: cs) a best (max best v)
  | contPr : ∀ c cs a best v r, pr = true → step c a v → ¬ beta ≤ max a v →
      LoopP pr beta step cs (max a v) (max best v) r →
      LoopP pr beta step (c :: cs) a best r
  | contNoPr : ∀ c cs a best v r, pr = false → step c a v →
      LoopP pr beta step cs a (max best v) r →
      LoopP pr beta step (c :: cs) a best r

/-- `NegamaxR pr d b p a beta v`: the Python `negamax(p, d, a, beta, pr)` on
board `b` can return `v` for some outcome of the `random.shuffle` calls.  Each
node picks an arbitrary permutation of its child list. -/
def NegamaxR (pr : Bool) : Nat → Board → Int → Score → Score → Score → Prop
  | 0 => fun b p _ _ v => v = scoreOfVal (get_state_value b p)
  | d + 1 => fun b p a beta v =>
      (is_state_terminal b = true ∧ v = scoreOfVal (get_state_value b p)) ∨
      (is_state_terminal b = false ∧ ∃ cs r, cs.Perm (get_children b (other_player p)) ∧
        LoopP pr beta (fun c x w => NegamaxR pr d c (other_player p) (sneg beta) (sneg x) w)
          cs a ⊥ r ∧ v = sneg r)

/-- One step of the `for move in moves` accumulator in `get_best_move`: the
two separate `if` statements of the source, in order.  (`if not move:
continue` never fires, because a two-element tuple is always truthy.) -/
def bestStep (w : Nat) (score : Coord → Score) (acc : Option Coord × Score) (m : Coord) :
    Option Coord × Score :=
  let s := score m
  let acc1 := if acc.2 < s then (some m, s) else acc
  if s = acc1.2 then
    if acc1.1 = none ∨ get_location_type m w > get_location_type (acc1.1.getD (0, 0)) w then
      (some m, s)
    else acc1
  else acc1

/-- `Othello.get_best_move`.  The score of a candidate move is
`child.negamax(player, plies - 1, -inf, inf, True)`; by the alpha-beta
equivalence theorem below this value does not depend on the shuffles, so the
identity-order `negamax` is used here. -/
def get_best_move (b : Board) (p : Int) (plies : Nat) : Option Coord :=
  ((get_available_moves b p).foldl
    (bestStep (boardHeight b) fun m => negamax (plies - 1) true (play_move (copy_board b) m p) p ⊥ ⊤)
    (none, ⊥)).1

/-- The cell the directional scan reads after `k` steps of offset `d` from
`loc`: `loc + k * d`. -/
def stepN (loc d : Coord) (k : Nat) : Coord := (loc.1 + k * d.1, loc.2 + k * d.2)

/-- The `while True` loop for offset `d` starting at `loc` never reaches a
`break`, no matter how many rounds it is allowed to run. -/
def WalkDiverges (b : Board) (p : Int) (d loc : Coord) : Prop :=
  ∀ fuel, walk b p d loc fuel = none

/-- The heap of grids: each `Othello` object owns the grid at its index.
Python's `Othello.__init__` deep-copies both list levels, so distinct objects
never share row storage; an object's `play_move` therefore rewrites only its
own grid, which this heap model captures by updating only the object's index. -/
abbrev Store : Type := List Board

/-- `Othello(board)` where `board` is the grid of index `src`: allocate a
fresh object holding the two-level copy of that grid. -/
def storeNewFrom (σ : Store) (src : Nat) : Store × Nat :=
  (σ ++ [copy_board (σ.getD src [])], σ.length)

/-- `obj.play_move(loc, p)` for the object at index `j`: in-place update of
its own grid. -/
def storePlayMove (σ : Store) (j : Nat) (loc : Coord) (p : Int) : Store :=
  σ.set j (play_move (σ.getD j []) loc p)

/-- `self.get_children(player)` on the object at index `j`: for each available
move allocate a copy of the grid and play the move on the copy. -/
def storeGetChildren (σ : Store) (j : Nat) (p : Int) : Store × List Nat :=
  (get_available_moves (σ.getD j []) p).foldl
    (fun acc m =>
      let alloc := storeNewFrom acc.1 j
      (storePlayMove alloc.1 alloc.2 m p, acc.2 ++ [alloc.2]))
    (σ, [])

/-- The heap-threaded child loop of `negamax`: `g σ k x` runs the recursive
call on the object at index `k` with upper window argument `x`. -/
def storeLoop (pr : Bool) (beta : Score) (g : Store → Nat → Score → Store × Score) :
    List Nat → Store → Score → Score → Store × Score
  | [], σ, _, best => (σ, best)
  | k :: ks, σ, a, best =>
    let r := g σ k (sneg a)
    let best2 := max best r.2
    if pr then
      let a2 := max a r.2
      if beta ≤ a2 then (r.1, best2) else storeLoop pr beta g ks r.1 a2 best2
    else storeLoop pr beta g ks r.1 a best2

/-- `negamax` with its heap effects: child objects are allocated by
`get_children` and mutated in place by their construction moves. -/
def storeNegamax : Nat → Bool → Store → Nat → Int → Score → Score → Store × Score
  | 0, _, σ, j, p, _, _ => (σ, scoreOfVal (get_state_value (σ.getD j []) p))
  | d + 1, pr, σ, j, p, a, beta =>
    if is_state_terminal (σ.getD j []) then (σ, scoreOfVal (get_state_value (σ.getD j []) p))
    else
      let ch := storeGetChildren σ j (other_player p)
      let res := storeLoop pr beta
        (fun σ2 k x => storeNegamax d pr σ2 k (other_player p) (sneg beta) x) ch.2 ch.1 a ⊥
      (res.1, sneg res.2)

/-- The heap-threaded `for move in moves` loop of `get_best_move` on the
object at index `j`. -/
def storeBestFold (w : Nat) (p : Int) (plies : Nat) (j : Nat) :
    List Coord → Store → (Option Coord × Score) → Store × (Option Coord × Score)
  | [], σ, acc => (σ, acc)
  | m :: ms, σ, acc =>
    let alloc := storeNewFrom σ j
    let σ1 := storePlayMove alloc.1 alloc.2 m p
    let r := storeNegamax (plies - 1) true σ1 alloc.2 p ⊥ ⊤
    storeBestFold w p plies j ms r.1 (bestStep w (fun _ => r.2) acc m)

/-- `get_best_move` with its heap effects. -/
def storeGetBestMove (σ : Store) (j : Nat) (p : Int) (plies : Nat) : Store × Option Coord :=
  let r := storeBestFold (boardHeight (σ.getD j [])) p plies j
    (get_available_moves (σ.getD j []) p) σ (none, ⊥)
  (r.1, r.2.1)

/-- `ComputerPlayer.pick_move(board)` for the snapshot at index `snap`:
construct an engine over a copy of the snapshot and delegate. -/
def storePickMove (σ : Store) (snap : Nat) (p : Int) (plies : Nat) : Store × Option Coord :=
  let alloc := storeNewFrom σ snap
  storeGetBestMove alloc.1 alloc.2 p plies

/-- `m1` comes strictly before `m2` in the row-major scan that generates
`_get_available_moves` (`y` outer, `x` inner). -/
def scanBefore (m1 m2 : Coord) : Prop :=
  m1.2 < m2.2 ∨ (m1.2 = m2.2 ∧ m1.1 < m2.1)

/-- Verification measure for a directional scan with a nonzero offset: an
upper bound on the rounds left before the scan runs off the board along one of
its moving coordinates. -/
def walkMeasure (b : Board) (d q : Coord) : Nat :=
  if d.1 = 1 then ((boardWidth b : Int) - q.1).toNat
  else if d.1 = -1 then (q.1 + 1).toNat
  else if d.2 = 1 then ((boardHeight b : Int) - q.2).toNat
  else (q.2 + 1).toNat

section Basic

theorem is_on_board_iff {b : Board} {l : Coord} :
    is_on_board b l = true ↔
      0 ≤ l.1 ∧ 0 ≤ l.2 ∧ l.2 + 1 ≤ (boardHeight b : Int) ∧ l.1 + 1 ≤ (boardWidth b : Int) := by
  simp [is_on_board]

end Basic

section ScoreLemmas

theorem score_cases (s : Score) :
    s = ⊥ ∨ s = ⊤ ∨ ∃ n : Int, s = ((n : WithTop Int) : Score) := by
  induction s using WithBot.recBotCoe with
  | bot => exact Or.inl rfl
  | coe t =>
    induction t using WithTop.recTopCoe with
    | top => exact Or.inr (Or.inl rfl)
    | coe n => exact Or.inr (Or.inr ⟨n, rfl⟩)

theorem sneg_bot : sneg (⊥ : Score) = ⊤ := rfl

theorem sneg_top : sneg (⊤ : Score) = ⊥ := rfl

theorem sneg_coe (n m : Int) (h : m = -n) :
    sneg ((n : WithTop Int) : Score) = ((m : WithTop Int) : Score) := by
  subst h; rfl

theorem sneg_sneg (s : Score) : sneg (sneg s) = s := by
  rcases score_cases s with h | h | ⟨n, h⟩ <;> subst h
  · rw [sneg_bot, sneg_top]
  · rw [sneg_top, sneg_bot]
  · rw [sneg_coe n (-n) rfl, sneg_coe (-n) n (by ring)]

theorem score_coe_ne_bot (n : Int) : ((n : WithTop Int) : Score) ≠ ⊥ :=
  WithBot.coe_ne_bot

theorem score_coe_ne_top (n : Int) : ((n : WithTop Int) : Score) ≠ ⊤ := by
  intro h
  exact WithTop.coe_ne_top (WithBot.coe_inj.mp h)

theorem sneg_le_sneg_iff {s t : Score} : sneg s ≤ sneg t ↔ t ≤ s := by
  rcases score_cases s with hs | hs | ⟨n, hs⟩ <;> subst hs <;>
    rcases score_cases t with ht | ht | ⟨m, ht⟩ <;> subst ht
  · rw [sneg_bot]
    exact iff_of_true le_rfl le_rfl
  · rw [sneg_bot, sneg_top]
  · rw [sneg_bot, sneg_coe m (-m) rfl]
    exact iff_of_false (fun h => score_coe_ne_top (-m) (top_le_iff.mp h))
      (fun h => score_coe_ne_bot m (le_bot_iff.mp h))
  · rw [sneg_top, sneg_bot]
  · rw [sneg_top]
    exact iff_of_true le_rfl le_rfl
  · rw [sneg_top, sneg_coe m (-m) rfl]
    exact iff_of_true bot_le le_top
  · rw [sneg_bot, sneg_coe n (-n) rfl]
    exact iff_of_true le_top bot_le
  · rw [sneg_top, sneg_coe n (-n) rfl]
    exact iff_of_false (fun h => score_coe_ne_bot (-n) (le_bot_iff.mp h))
      (fun h => score_coe_ne_top n (top_le_iff.mp h))
  · rw [sneg_coe n (-n) rfl, sneg_coe m (-m) rfl, WithBot.coe_le_coe, WithBot.coe_le_coe,
      WithTop.coe_le_coe, WithTop.coe_le_coe]
    exact neg_le_neg_iff

theorem sneg_max (s t : Score) : sneg (max s t) = min (sneg s) (sneg t) := by
  rcases le_total s t with h | h
  · rw [max_eq_right h, min_eq_right (sneg_le_sneg_iff.mpr h)]
  · rw [max_eq_left h, min_eq_left (sneg_le_sneg_iff.mpr h)]

theorem sneg_min (s t : Score) : sneg (min s t) = max (sneg s) (sneg t) := by
  rcases le_total s t with h | h
  · rw [min_eq_left h, max_eq_left (sneg_le_sneg_iff.mpr h)]
  · rw [min_eq_right h, max_eq_right (sneg_le_sneg_iff.mpr h)]

end ScoreLemmas

section NegamaxLemmas

theorem sneg_lt_sneg_iff {s t : Score} : sneg s < sneg t ↔ t < s := by
  rw [lt_iff_le_not_le, lt_iff_le_not_le, sneg_le_sneg_iff, sneg_le_sneg_iff]

theorem listMax_cons (s : Score) (l : List Score) : listMax (s :: l) = max s (listMax l) := rfl

theorem listMax_bot_cons (l : List Score) : listMax (⊥ :: l) = listMax l := by
  rw [listMax_cons, max_eq_right bot_le]

theorem listMax_perm {l l2 : List Score} (h : l.Perm l2) : listMax l = listMax l2 := by
  induction h with
  | nil => rfl
  | cons x _ ih => rw [listMax_cons, listMax_cons, ih]
  | swap x y l => rw [listMax_cons, listMax_cons, listMax_cons, listMax_cons, max_left_comm]
  | trans _ _ ih1 ih2 => rw [ih1, ih2]

theorem listMax_singleton (s : Score) : listMax [s] = s := by
  rw [show ([s] : List Score) = s :: [] from rfl, listMax_cons]
  exact max_eq_left bot_le

/-- The fail-soft bound for one run of the pruning child loop: the result is
between `min beta T` and `max a T`, where `T` is the true maximum of the
accumulator and of the remaining children's full-width values. -/
theorem loopP_km {beta : Score} {N : Board → Score} {step : Board → Score → Score → Prop}
    (hstep : ∀ c x v, step c x v → x < beta → min (N c) beta ≤ v ∧ v ≤ max (N c) x) :
    ∀ {cs : List Board} {a best r : Score}, LoopP true beta step cs a best r → a < beta →
      min beta (listMax (best :: cs.map N)) ≤ r ∧ r ≤ max a (listMax (best :: cs.map N)) := by
  intro cs a best r h
  induction h with
  | nil a best =>
    intro _
    rw [List.map_nil, listMax_singleton]
    exact ⟨min_le_right _ _, le_max_right _ _⟩
  | stop c cs a best v _ hv hcut =>
    intro ha
    rcases hstep c a v hv ha with ⟨hlo, hhi⟩
    have hbv : beta ≤ v := by
      by_contra hb
      exact absurd hcut (not_le.mpr (max_lt ha (not_le.mp hb)))
    rw [List.map_cons, listMax_cons, listMax_cons]
    constructor
    · exact le_trans (min_le_left _ _) (le_trans hbv (le_max_right best v))
    · refine max_le (le_max_of_le_right (le_max_left _ _)) (le_trans hhi (max_le ?_ ?_))
      · exact le_max_of_le_right (le_max_of_le_right (le_max_left _ _))
      · exact le_max_left _ _
  | contPr c cs a best v r _ hv hcut _ ih =>
    intro ha
    have ha2 : max a v < beta := not_le.mp hcut
    rcases hstep c a v hv ha with ⟨hlo, hhi⟩
    rcases ih ha2 with ⟨ihlo, ihhi⟩
    rw [listMax_cons] at ihlo ihhi
    rw [List.map_cons, listMax_cons, listMax_cons]
    set Mr := listMax (cs.map N) with hMr
    set T := max best (max (N c) Mr) with hT
    have hbT : best ≤ T := le_max_left _ _
    have hNcT : N c ≤ T := le_max_of_le_right (le_max_left _ _)
    have hMrT : Mr ≤ T := le_max_of_le_right (le_max_right _ _)
    have hvNa : v ≤ max a T := le_trans hhi (max_le (le_trans hNcT (le_max_right a T)) (le_max_left a T))
    constructor
    · have hTT2 : min beta T ≤ max (max best v) Mr := by
        rcases le_total beta (N c) with hc | hc
        · have hv2 : beta ≤ v := by
            rw [min_eq_right hc] at hlo
            exact hlo
          exact le_trans (min_le_left _ _) (le_trans hv2 (le_max_of_le_left (le_max_right best v)))
        · have hv2 : N c ≤ v := by
            rw [min_eq_left hc] at hlo
            exact hlo
          refine le_trans (min_le_right _ _) (max_le (le_max_of_le_left (le_max_left best v)) ?_)
          exact max_le (le_max_of_le_left (le_trans hv2 (le_max_right best v))) (le_max_right _ _)
      exact le_trans (le_min (min_le_left _ _) hTT2) ihlo
    · refine le_trans ihhi (max_le (max_le (le_max_left a T) hvNa) (max_le (max_le ?_ hvNa) ?_))
      · exact le_max_of_le_right hbT
      · exact le_max_of_le_right hMrT
  | contNoPr c cs a best v r hpr => exact absurd hpr (by simp)

/-- With pruning disabled the loop computes exactly the full-width maximum. -/
theorem loopP_fw {beta : Score} {N : Board → Score} {step : Board → Score → Score → Prop}
    (hstep : ∀ c x v, step c x v → v = N c) :
    ∀ {cs : List Board} {a best r : Score}, LoopP false beta step cs a best r →
      r = listMax (best :: cs.map N) := by
  intro cs a best r h
  induction h with
  | nil a best => rw [List.map_nil, listMax_singleton]
  | stop c cs a best v hpr => exact absurd hpr (by simp)
  | contPr c cs a best v r hpr => exact absurd hpr (by simp)
  | contNoPr c cs a best v r _ hv _ ih =>
    rw [ih, hstep c _ v hv, List.map_cons, listMax_cons, listMax_cons, listMax_cons, max_assoc]

/-- Any run with pruning disabled computes the full-width value, whatever the
shuffles did and whatever the (unused) window is. -/
theorem negamaxR_fw :
    ∀ (d : Nat) {b : Board} {p : Int} {a beta v : Score},
      NegamaxR false d b p a beta v → v = negamaxFW d b p := by
  intro d
  induction d with
  | zero =>
    intro b p a beta v h
    exact h
  | succ d ih =>
    intro b p a beta v h
    rcases h with ⟨ht, hv⟩ | ⟨ht, cs, r, hperm, hloop, hv⟩
    · rw [hv, negamaxFW, if_pos ht]
    · have hr : r = listMax (⊥ :: cs.map fun c => negamaxFW d c (other_player p)) :=
        loopP_fw (fun c x w hw => ih hw) hloop
      rw [hv, hr, listMax_bot_cons, negamaxFW, if_neg (by rw [ht]; exact Bool.false_ne_true),
        listMax_perm (hperm.map fun c => negamaxFW d c (other_player p))]

/-- The Knuth-Moore fail-soft bound for any pruning run of `negamax` with a
nonempty window: the result lies between `min N (-a)` and `max N (-beta)`,
where `N` is the full-width value. -/
theorem negamaxR_km :
    ∀ (d : Nat) {b : Board} {p : Int} {a beta v : Score},
      NegamaxR true d b p a beta v → a < beta →
      min (negamaxFW d b p) (sneg a) ≤ v ∧ v ≤ max (negamaxFW d b p) (sneg beta) := by
  intro d
  induction d with
  | zero =>
    intro b p a beta v h _
    rw [h]
    exact ⟨min_le_left _ _, le_max_left _ _⟩
  | succ d ih =>
    intro b p a beta v h hab
    rcases h with ⟨ht, hv⟩ | ⟨ht, cs, r, hperm, hloop, hv⟩
    · rw [hv, negamaxFW, if_pos ht]
      exact ⟨min_le_left _ _, le_max_left _ _⟩
    · have hstep : ∀ c x w,
          NegamaxR true d c (other_player p) (sneg beta) (sneg x) w → x < beta →
          min (negamaxFW d c (other_player p)) beta ≤ w ∧
            w ≤ max (negamaxFW d c (other_player p)) x := by
        intro c x w hw hx
        have hwin : sneg beta < sneg x := sneg_lt_sneg_iff.mpr hx
        have hb := ih hw hwin
        rwa [sneg_sneg, sneg_sneg] at hb
      rcases loopP_km hstep hloop hab with ⟨hlo, hhi⟩
      rw [listMax_bot_cons] at hlo hhi
      have hM : listMax (cs.map fun c => negamaxFW d c (other_player p)) =
          listMax ((get_children b (other_player p)).map fun c => negamaxFW d c (other_player p)) :=
        listMax_perm (hperm.map fun c => negamaxFW d c (other_player p))
      rw [hM] at hlo hhi
      set M := listMax ((get_children b (other_player p)).map fun c => negamaxFW d c (other_player p))
        with hMdef
      have hNW : negamaxFW (d + 1) b p = sneg M := by
        rw [negamaxFW, if_neg (by rw [ht]; exact Bool.false_ne_true)]
      rw [hv, hNW]
      constructor
      · have h2 : sneg (max a M) ≤ sneg r := sneg_le_sneg_iff.mpr hhi
        rw [sneg_max] at h2
        rw [min_comm (sneg M) (sneg a)]
        exact h2
      · have h2 : sneg r ≤ sneg (min beta M) := sneg_le_sneg_iff.mpr hlo
        rw [sneg_min] at h2
        rw [max_comm (sneg M) (sneg beta)]
        exact h2

/-- The identity-order executable `negamax` is one of the runs described by
`NegamaxR` (the shuffle that leaves the child list unchanged). -/
theorem abLoop_loopP {pr : Bool} {beta : Score} {f : Board → Score → Score}
    {step : Board → Score → Score → Prop} (hf : ∀ c x, step c x (f c (sneg x))) :
    ∀ (cs : List Board) (a best : Score),
      LoopP pr beta step cs a best (abLoop pr beta f cs a best) := by
  intro cs
  induction cs with
  | nil => intro a best; exact LoopP.nil a best
  | cons c cs ih =>
    intro a best
    cases pr with
    | false =>
      rw [abLoop, if_neg (by decide : ¬ ((false : Bool) = true))]
      exact LoopP.contNoPr c cs a best _ _ rfl (hf c a) (ih a _)
    | true =>
      rw [abLoop, if_pos rfl]
      by_cases hcut : beta ≤ max a (f c (sneg a))
      · rw [if_pos hcut]
        exact LoopP.stop c cs a best _ rfl (hf c a) hcut
      · rw [if_neg hcut]
        exact LoopP.contPr c cs a best _ _ rfl (hf c a) hcut (ih _ _)

theorem negamax_R :
    ∀ (d : Nat) (pr : Bool) (b : Board) (p : Int) (a beta : Score),
      NegamaxR pr d b p a beta (negamax d pr b p a beta) := by
  intro d
  induction d with
  | zero => intro pr b p a beta; rfl
  | succ d ih =>
    intro pr b p a beta
    by_cases ht : is_state_terminal b = true
    · exact Or.inl ⟨ht, by rw [negamax, if_pos ht]⟩
    · refine Or.inr ⟨by rwa [Bool.not_eq_true] at ht, get_children b (other_player p), _,
        List.Perm.refl _, abLoop_loopP (fun c x => ih pr c (other_player p) (sneg beta) (sneg x)) _ a ⊥, ?_⟩
      rw [negamax, if_neg ht]

end NegamaxLemmas

section ListHelpers

theorem getD_cons_succ {α : Type} (x : α) (xs : List α) (i : Nat) (d : α) :
    (x :: xs).getD (i + 1) d = xs.getD i d := rfl

theorem getD_set_self {α : Type} :
    ∀ (l : List α) (i : Nat) (a d : α), i < l.length → (l.set i a).getD i d = a
  | [], i, _, _, h => absurd h (by simp)
  | _ :: _, 0, _, _, _ => rfl
  | _ :: xs, i + 1, a, d, h => getD_set_self xs i a d (by simpa using h)

theorem getD_set_ne {α : Type} :
    ∀ (l : List α) {i j : Nat}, i ≠ j → ∀ (a d : α), (l.set i a).getD j d = l.getD j d
  | [], _, _, _, _, _ => rfl
  | _ :: _, 0, 0, h, _, _ => absurd rfl h
  | _ :: _, 0, _ + 1, _, _, _ => rfl
  | _ :: _, _ + 1, 0, _, _, _ => rfl
  | _ :: xs, i + 1, j + 1, h, a, d => by
    rw [List.set_cons_succ, getD_cons_succ, getD_cons_succ]
    exact getD_set_ne xs (fun hij => h (by rw [hij])) a d

theorem getD_append_left {α : Type} :
    ∀ (l1 l2 : List α) (k : Nat) (d : α), k < l1.length → (l1 ++ l2).getD k d = l1.getD k d
  | [], _, k, _, h => absurd h (by simp)
  | _ :: _, _, 0, _, _ => rfl
  | _ :: xs, l2, k + 1, d, h => by
    rw [List.cons_append, getD_cons_succ, getD_cons_succ]
    exact getD_append_left xs l2 k d (by simpa using h)

theorem set_out_of_range {α : Type} :
    ∀ (l : List α) (i : Nat) (a : α), l.length ≤ i → l.set i a = l
  | [], _, _, _ => rfl
  | _ :: _, 0, _, h => absurd h (by simp)
  | x :: xs, i + 1, a, h => by
    rw [List.set_cons_succ, set_out_of_range xs i a (by simpa using h)]

theorem getD_mem {α : Type} :
    ∀ (l : List α) (i : Nat) (d : α), i < l.length → l.getD i d ∈ l
  | [], i, _, h => absurd h (by simp)
  | x :: xs, 0, d, _ => List.mem_cons_self x xs
  | x :: xs, i + 1, d, h =>
    List.mem_cons_of_mem x (getD_mem xs i d (by simpa using h))

theorem rowCount_set_add (p v : Int) :
    ∀ (row : List Int) (i : Nat), i < row.length →
      rowCount p (row.set i v) + (if row.getD i 0 = p then 1 else 0) =
        rowCount p row + (if v = p then 1 else 0)
  | [], i, h => absurd h (by simp)
  | c :: cs, 0, _ => by
    simp only [List.set_cons_zero, rowCount, List.getD_cons_zero]
    omega
  | c :: cs, i + 1, h => by
    simp only [List.set_cons_succ, rowCount, getD_cons_succ]
    have := rowCount_set_add p v cs i (by simpa using h)
    omega

theorem gsv_set_row (p : Int) :
    ∀ (b : Board) (y : Nat) (r2 : List Int), y < b.length →
      get_state_value (b.set y r2) p + rowCount p (b.getD y []) =
        get_state_value b p + rowCount p r2
  | [], y, _, h => absurd h (by simp)
  | row :: rest, 0, r2, _ => by
    simp only [List.set_cons_zero, get_state_value, List.map_cons, List.sum_cons,
      List.getD_cons_zero]
    omega
  | row :: rest, y + 1, r2, h => by
    simp only [List.set_cons_succ, get_state_value, List.map_cons, List.sum_cons, getD_cons_succ]
    have := gsv_set_row p rest y r2 (by simpa using h)
    simp only [get_state_value] at this
    omega

end ListHelpers

section CellLemmas

theorem boardHeight_setCell (b : Board) (loc : Coord) (v : Int) :
    boardHeight (setCell b loc v) = boardHeight b := by
  simp [boardHeight, setCell]

theorem boardWidth_setCell (b : Board) (loc : Coord) (v : Int) :
    boardWidth (setCell b loc v) = boardWidth b := by
  rcases b with _ | ⟨row, rest⟩
  · rfl
  · rcases hy : loc.2.toNat with _ | y
    · simp [boardWidth, setCell, hy, List.headD]
    · simp [boardWidth, setCell, hy, List.headD]

theorem is_on_board_setCell (b : Board) (loc q : Coord) (v : Int) :
    is_on_board (setCell b loc v) q = is_on_board b q := by
  simp [is_on_board, boardWidth_setCell, boardHeight_setCell]

theorem WF_setCell {b : Board} (loc : Coord) (v : Int) (h : WF b) : WF (setCell b loc v) := by
  rcases h with ⟨hne, hrow⟩
  constructor
  · simp only [setCell]
    intro hc
    exact hne (by simpa using congrArg List.length hc)
  · intro row hmem
    rw [boardWidth_setCell]
    by_cases hy : loc.2.toNat < b.length
    · rcases List.mem_or_eq_of_mem_set hmem with hmem2 | heq
      · exact hrow row hmem2
      · rw [heq, List.length_set]
        exact hrow _ (getD_mem b loc.2.toNat [] hy)
    · simp only [setCell] at hmem
      rw [set_out_of_range b loc.2.toNat _ (by omega)] at hmem
      exact hrow row hmem

theorem cell_setCell_ne {b : Board} {loc q : Coord} (v : Int)
    (hloc : is_on_board b loc = true) (hq : is_on_board b q = true) (hne : q ≠ loc) :
    cell (setCell b loc v) q = cell b q := by
  rcases is_on_board_iff.mp hloc with ⟨hx1, hy1, hy2, hx2⟩
  rcases is_on_board_iff.mp hq with ⟨qx1, qy1, qy2, qx2⟩
  by_cases hyy : q.2.toNat = loc.2.toNat
  · have hxx : q.1.toNat ≠ loc.1.toNat := by
      intro hc
      exact hne (Prod.ext (by omega) (by omega))
    rw [cell, setCell, hyy, getD_set_self b loc.2.toNat _ []
      (by simp only [boardHeight] at hy2; omega)]
    rw [getD_set_ne _ (fun hc => hxx hc.symm), cell, hyy]
  · rw [cell, setCell, getD_set_ne b (fun hc => hyy hc.symm), cell]

theorem cell_setCell_self {b : Board} {loc : Coord} (v : Int)
    (hwf : WF b) (hloc : is_on_board b loc = true) :
    cell (setCell b loc v) loc = v := by
  rcases is_on_board_iff.mp hloc with ⟨hx1, hy1, hy2, hx2⟩
  have hylt : loc.2.toNat < b.length := by simp only [boardHeight] at hy2; omega
  have hxlt : loc.1.toNat < (b.getD loc.2.toNat []).length := by
    rw [hwf.2 _ (getD_mem b loc.2.toNat [] hylt)]
    simp only [boardWidth] at hx2 ⊢
    omega
  rw [cell, setCell, getD_set_self b loc.2.toNat _ [] hylt, getD_set_self _ _ _ _ hxlt]

theorem get_state_value_setCell {b : Board} {loc : Coord} (v p : Int)
    (hwf : WF b) (hloc : is_on_board b loc = true) :
    get_state_value (setCell b loc v) p + (if cell b loc = p then 1 else 0) =
      get_state_value b p + (if v = p then 1 else 0) := by
  rcases is_on_board_iff.mp hloc with ⟨hx1, hy1, hy2, hx2⟩
  have hylt : loc.2.toNat < b.length := by simp only [boardHeight] at hy2; omega
  have hxlt : loc.1.toNat < (b.getD loc.2.toNat []).length := by
    rw [hwf.2 _ (getD_mem b loc.2.toNat [] hylt)]
    simp only [boardWidth] at hx2 ⊢
    omega
  have h1 := gsv_set_row p b loc.2.toNat ((b.getD loc.2.toNat []).set loc.1.toNat v) hylt
  have h2 := rowCount_set_add p v (b.getD loc.2.toNat []) loc.1.toNat hxlt
  rw [cell]
  simp only [setCell] at h1 ⊢
  omega

end CellLemmas

section WalkLemmas

theorem stepN_zero (loc d : Coord) : stepN loc d 0 = loc := by
  simp [stepN]

theorem stepN_one (loc d : Coord) : (loc.1 + d.1, loc.2 + d.2) = stepN loc d 1 := by
  simp [stepN]

theorem stepN_next (loc d : Coord) (k : Nat) :
    ((stepN loc d k).1 + d.1, (stepN loc d k).2 + d.2) = stepN loc d (k + 1) := by
  simp only [stepN, Prod.mk.injEq]
  constructor <;> push_cast <;> ring

theorem dirList_cases {d : Coord} (h : d ∈ dirList) :
    d = (-1, -1) ∨ d = (-1, 0) ∨ d = (-1, 1) ∨ d = (0, -1) ∨ d = (0, 0) ∨ d = (0, 1) ∨
      d = (1, -1) ∨ d = (1, 0) ∨ d = (1, 1) := by
  simpa [dirList] using h

theorem walkMeasure_off {b : Board} {d q : Coord} (hd : d ∈ dirList) (hd0 : d ≠ (0, 0))
    (h : walkMeasure b d q = 0) : is_on_board b q = false := by
  rw [← Bool.not_eq_true, is_on_board_iff]
  rcases dirList_cases hd with rfl | rfl | rfl | rfl | rfl | rfl | rfl | rfl | rfl <;>
    simp only [walkMeasure] at h <;> norm_num at h ⊢ <;> omega

theorem walkMeasure_step {b : Board} {d q : Coord} (hd : d ∈ dirList) (hd0 : d ≠ (0, 0))
    (h : is_on_board b q = true) :
    1 ≤ walkMeasure b d q ∧ walkMeasure b d (q.1 + d.1, q.2 + d.2) = walkMeasure b d q - 1 := by
  rw [is_on_board_iff] at h
  rcases dirList_cases hd with rfl | rfl | rfl | rfl | rfl | rfl | rfl | rfl | rfl <;>
    [skip; skip; skip; skip; exact absurd rfl hd0; skip; skip; skip; skip] <;>
    simp only [walkMeasure] <;> norm_num <;> omega

theorem walkMeasure_start {b : Board} {d loc : Coord} (hd : d ∈ dirList) (hd0 : d ≠ (0, 0))
    (h : is_on_board b loc = true) :
    walkMeasure b d (loc.1 + d.1, loc.2 + d.2) ≤ boardWidth b + boardHeight b + 1 := by
  rw [is_on_board_iff] at h
  rcases dirList_cases hd with rfl | rfl | rfl | rfl | rfl | rfl | rfl | rfl | rfl <;>
    [skip; skip; skip; skip; exact absurd rfl hd0; skip; skip; skip; skip] <;>
    simp only [walkMeasure] <;> norm_num <;> omega

theorem walk_ne_none {b : Board} {p : Int} {d : Coord} (hd : d ∈ dirList) (hd0 : d ≠ (0, 0)) :
    ∀ (n : Nat) (q : Coord), walkMeasure b d q ≤ n → walk b p d q (n + 1) ≠ none := by
  intro n
  induction n with
  | zero =>
    intro q hm
    have hoff : is_on_board b q = false := walkMeasure_off hd hd0 (by omega)
    rw [walk, if_pos hoff]
    exact Option.noConfusion
  | succ n ih =>
    intro q hm
    by_cases hob : is_on_board b q = true
    · rw [walk]
      rw [if_neg (by rw [hob]; exact fun hc => Bool.noConfusion hc)]
      by_cases h0 : cell b q = 0
      · rw [if_pos h0]
        exact Option.noConfusion
      · rw [if_neg h0]
        by_cases hp : cell b q = p
        · rw [if_pos hp]
          exact Option.noConfusion
        · rw [if_neg hp]
          intro hc
          rcases @walkMeasure_step b d q hd hd0 hob with ⟨h1, h2⟩
          have := ih (q.1 + d.1, q.2 + d.2) (by omega)
          rcases hw : walk b p d (q.1 + d.1, q.2 + d.2) (n + 1) with _ | o
          · exact this hw
          · rw [hw] at hc
            exact Option.noConfusion hc
    · rw [walk, if_pos (by rwa [Bool.not_eq_true] at hob)]
      exact Option.noConfusion

/-- A stationary scan on a cell holding a disc of the scanned-against colour
never reaches a `break`: the Python loop runs forever. -/
theorem walk_center_diverges {b : Board} {p : Int} {loc : Coord}
    (hob : is_on_board b loc = true) (h0 : cell b loc ≠ 0) (hp : cell b loc ≠ p) :
    WalkDiverges b p (0, 0) loc := by
  intro fuel
  induction fuel with
  | zero => rfl
  | succ n ih =>
    rw [walk, if_neg (by rw [hob]; exact fun hc => Bool.noConfusion hc), if_neg h0, if_neg hp]
    have harg : (loc.1 + (0 : Int), loc.2 + (0 : Int)) = loc := by
      simp
    rw [show ((0 : Int), (0 : Int)).1 = (0 : Int) from rfl,
      show ((0 : Int), (0 : Int)).2 = (0 : Int) from rfl, harg, ih]
    rfl

/-- Whenever a stationary scan does break, its contribution is empty. -/
theorem walk_center_some {b : Board} {p : Int} {loc : Coord} {fuel : Nat} {o : Option (List Coord)}
    (h : walk b p (0, 0) loc fuel = some o) : o = none ∨ o = some [] := by
  rcases fuel with _ | n
  · exact Option.noConfusion h
  · rw [walk] at h
    by_cases hob : is_on_board b loc = true
    · rw [if_neg (by rw [hob]; exact fun hc => Bool.noConfusion hc)] at h
      by_cases h0 : cell b loc = 0
      · rw [if_pos h0] at h
        exact Or.inl (Option.some.inj h).symm
      · rw [if_neg h0] at h
        by_cases hp : cell b loc = p
        · rw [if_pos hp] at h
          exact Or.inr (Option.some.inj h).symm
        · rw [if_neg hp] at h
          have harg : (loc.1 + (0 : Int), loc.2 + (0 : Int)) = loc := by
            simp
          rw [show ((0 : Int), (0 : Int)).1 = (0 : Int) from rfl,
            show ((0 : Int), (0 : Int)).2 = (0 : Int) from rfl, harg,
            walk_center_diverges hob h0 hp n] at h
          exact Option.noConfusion h
    · rw [if_pos (by rwa [Bool.not_eq_true] at hob)] at h
      exact Or.inl (Option.some.inj h).symm

/-- What a `break` on `tile == player` means: the scan from `loc + (m+1)d`
collected exactly the contiguous run of on-board cells holding neither `0` nor
`p`, and the cell just past the run holds `p`. -/
theorem walk_keep_spec {b : Board} {p : Int} {d loc : Coord} :
    ∀ (fuel m : Nat) (l : List Coord),
      walk b p d (stepN loc d (m + 1)) fuel = some (some l) →
      ∃ k : Nat, l = (List.range k).map (fun i => stepN loc d (m + 1 + i)) ∧
        (∀ i, i < k → is_on_board b (stepN loc d (m + 1 + i)) = true ∧
          cell b (stepN loc d (m + 1 + i)) ≠ 0 ∧ cell b (stepN loc d (m + 1 + i)) ≠ p) ∧
        is_on_board b (stepN loc d (m + 1 + k)) = true ∧ cell b (stepN loc d (m + 1 + k)) = p := by
  intro fuel
  induction fuel with
  | zero => intro m l h; exact Option.noConfusion h
  | succ n ih =>
    intro m l h
    rw [walk] at h
    by_cases hob : is_on_board b (stepN loc d (m + 1)) = true
    · rw [if_neg (by rw [hob]; exact fun hc => Bool.noConfusion hc)] at h
      by_cases h0 : cell b (stepN loc d (m + 1)) = 0
      · rw [if_pos h0] at h
        exact Option.noConfusion (Option.some.inj h)
      · rw [if_neg h0] at h
        by_cases hp : cell b (stepN loc d (m + 1)) = p
        · rw [if_pos hp] at h
          refine ⟨0, by simpa using (Option.some.inj (Option.some.inj h)).symm, ?_, hob, hp⟩
          intro i hi
          exact absurd hi (by omega)
        · rw [if_neg hp, stepN_next] at h
          rcases hw : walk b p d (stepN loc d (m + 1 + 1)) n with _ | _ | l2
          · rw [hw] at h
            exact Option.noConfusion h
          · rw [hw] at h
            exact Option.noConfusion (Option.some.inj h)
          · rw [hw] at h
            have hl : l = stepN loc d (m + 1) :: l2 :=
              ((Option.some.inj (Option.some.inj h))).symm
            rcases ih (m + 1) l2 hw with ⟨k2, hl2, hcells2, hterm2, hcellp2⟩
            refine ⟨k2 + 1, ?_, ?_, ?_, ?_⟩
            · rw [hl, hl2, List.range_succ_eq_map, List.map_cons, List.map_map]
              refine congrArg₂ _ (by rw [Nat.add_zero]) (List.map_congr_left ?_)
              intro i _
              simp only [Function.comp_apply]
              rw [show m + 1 + (i + 1) = m + 1 + 1 + i by omega]
            · intro i hi
              rcases i with _ | j
              · rw [Nat.add_zero]
                exact ⟨hob, h0, hp⟩
              · rw [show m + 1 + (j + 1) = m + 1 + 1 + j by omega]
                exact hcells2 j (by omega)
            · rw [show m + 1 + (k2 + 1) = m + 1 + 1 + k2 by omega]
              exact hterm2
            · rw [show m + 1 + (k2 + 1) = m + 1 + 1 + k2 by omega]
              exact hcellp2
    · rw [if_pos (by rwa [Bool.not_eq_true] at hob)] at h
      exact Option.noConfusion (Option.some.inj h)

theorem stepN_inj {d : Coord} (hd : d ∈ dirList) (hd0 : d ≠ (0, 0)) (loc : Coord)
    {k1 k2 : Nat} (h : stepN loc d k1 = stepN loc d k2) : k1 = k2 := by
  simp only [stepN, Prod.mk.injEq] at h
  rcases dirList_cases hd with rfl | rfl | rfl | rfl | rfl | rfl | rfl | rfl | rfl <;>
    [skip; skip; skip; skip; exact absurd rfl hd0; skip; skip; skip; skip] <;>
    · simp only at h
      omega

theorem stepN_cross {d1 d2 : Coord} (h1 : d1 ∈ dirList) (h2 : d2 ∈ dirList)
    (hd1 : d1 ≠ (0, 0)) (hd2 : d2 ≠ (0, 0)) (hne : d1 ≠ d2) (loc : Coord) {k1 k2 : Nat}
    (hk1 : 1 ≤ k1) (hk2 : 1 ≤ k2) : stepN loc d1 k1 ≠ stepN loc d2 k2 := by
  intro h
  simp only [stepN, Prod.mk.injEq] at h
  rcases dirList_cases h1 with rfl | rfl | rfl | rfl | rfl | rfl | rfl | rfl | rfl <;>
    rcases dirList_cases h2 with rfl | rfl | rfl | rfl | rfl | rfl | rfl | rfl | rfl <;>
      first
        | exact hd1 rfl
        | exact hd2 rfl
        | exact hne rfl
        | (simp only at h; omega)

theorem stepN_ne_base {d : Coord} (hd : d ∈ dirList) (hd0 : d ≠ (0, 0)) (loc : Coord)
    {k : Nat} (hk : 1 ≤ k) : stepN loc d k ≠ loc := by
  intro h
  have h0 : stepN loc d k = stepN loc d 0 := by rw [stepN_zero, h]
  exact absurd (stepN_inj hd hd0 loc h0) (by omega)

theorem walkFuel_succ (b : Board) :
    walkFuel b = (boardWidth b + boardHeight b + 1) + 1 := rfl

theorem dirWalk_isSome {b : Board} {p : Int} {loc d : Coord} (hd : d ∈ dirList)
    (hloc : is_on_board b loc = true) (hcen : cell b loc = 0 ∨ cell b loc = p) :
    ∃ l, dirWalk b p loc d = some l := by
  by_cases hd0 : d = (0, 0)
  · subst hd0
    rw [dirWalk]
    have harg : (loc.1 + ((0 : Int), (0 : Int)).1, loc.2 + ((0 : Int), (0 : Int)).2) = loc := by
      simp
    rw [harg, walkFuel_succ, walk]
    rcases hcen with h0 | hp
    · rw [if_neg (by rw [hloc]; exact fun hc => Bool.noConfusion hc), if_pos h0]
      exact ⟨[], rfl⟩
    · by_cases h0 : cell b loc = 0
      · rw [if_neg (by rw [hloc]; exact fun hc => Bool.noConfusion hc), if_pos h0]
        exact ⟨[], rfl⟩
      · rw [if_neg (by rw [hloc]; exact fun hc => Bool.noConfusion hc), if_neg h0, if_pos hp]
        exact ⟨[], rfl⟩
  · rw [dirWalk, walkFuel_succ]
    have hne := @walk_ne_none b p d hd hd0 (boardWidth b + boardHeight b + 1)
      (loc.1 + d.1, loc.2 + d.2) (walkMeasure_start hd hd0 hloc)
    rcases hw : walk b p d (loc.1 + d.1, loc.2 + d.2) (boardWidth b + boardHeight b + 1 + 1)
      with _ | _ | l
    · exact absurd hw hne
    · exact ⟨[], rfl⟩
    · exact ⟨l, rfl⟩

theorem collectDirs_isSome {b : Board} {p : Int} {loc : Coord} :
    ∀ ds : List Coord, (∀ d ∈ ds, ∃ l, dirWalk b p loc d = some l) →
      ∃ L, collectDirs b p loc ds = some L
  | [], _ => ⟨[], rfl⟩
  | d :: ds, h => by
    rcases h d (List.mem_cons_self d ds) with ⟨l, hl⟩
    rcases collectDirs_isSome ds (fun d2 h2 => h d2 (List.mem_cons_of_mem d h2)) with ⟨L, hL⟩
    exact ⟨l ++ L, by rw [collectDirs, hl, hL]⟩

theorem get_flippedF_isSome {b : Board} {p : Int} {loc : Coord}
    (hloc : is_on_board b loc = true) (hcen : cell b loc = 0 ∨ cell b loc = p) :
    ∃ L, get_flippedF b p loc = some L :=
  collectDirs_isSome dirList fun d hd => dirWalk_isSome hd hloc hcen

theorem collectDirs_mem {b : Board} {p : Int} {loc : Coord} :
    ∀ (ds : List Coord) (L : List Coord), collectDirs b p loc ds = some L →
      ∀ f ∈ L, ∃ d ∈ ds, ∃ lf, dirWalk b p loc d = some lf ∧ f ∈ lf
  | [], L, h, f => by
    rw [collectDirs] at h
    rw [← Option.some.inj h]
    exact fun hf => absurd hf (List.not_mem_nil f)
  | d :: ds, L, h, f => by
    rw [collectDirs] at h
    rcases hw : dirWalk b p loc d with _ | lf <;> rw [hw] at h
    · exact Option.noConfusion h
    · rcases hc : collectDirs b p loc ds with _ | L2 <;> rw [hc] at h
      · exact Option.noConfusion h
      · rw [← Option.some.inj h]
        intro hf
        rcases List.mem_append.mp hf with hf1 | hf2
        · exact ⟨d, List.mem_cons_self d ds, lf, hw, hf1⟩
        · rcases collectDirs_mem ds L2 hc f hf2 with ⟨d2, hd2, lf2, hw2, hf3⟩
          exact ⟨d2, List.mem_cons_of_mem d hd2, lf2, hw2, hf3⟩

/-- What one offset can contribute: nothing, or (for a proper direction) the
run of sandwiched cells `loc + d, …, loc + k*d` closed off by a `p` disc at
`loc + (k+1)*d`. -/
theorem dirWalk_spec {b : Board} {p : Int} {loc d : Coord} (hd : d ∈ dirList) {lf : List Coord}
    (h : dirWalk b p loc d = some lf) :
    lf = [] ∨ (d ≠ (0, 0) ∧ ∃ k : Nat, lf = (List.range k).map (fun i => stepN loc d (i + 1)) ∧
      (∀ i, i < k → is_on_board b (stepN loc d (i + 1)) = true ∧
        cell b (stepN loc d (i + 1)) ≠ 0 ∧ cell b (stepN loc d (i + 1)) ≠ p) ∧
      is_on_board b (stepN loc d (k + 1)) = true ∧ cell b (stepN loc d (k + 1)) = p) := by
  rw [dirWalk] at h
  rcases hw : walk b p d (loc.1 + d.1, loc.2 + d.2) (walkFuel b) with _ | _ | l <;> rw [hw] at h
  · exact Option.noConfusion h
  · exact Or.inl (Option.some.inj h).symm
  · by_cases hd0 : d = (0, 0)
    · subst hd0
      have harg : (loc.1 + ((0 : Int), (0 : Int)).1, loc.2 + ((0 : Int), (0 : Int)).2) = loc := by
        simp
      rw [harg] at hw
      rcases walk_center_some hw with hc | hc
      · exact Option.noConfusion hc
      · rw [← Option.some.inj h]
        exact Or.inl (Option.some.inj hc)
    · rw [stepN_one] at hw
      rcases walk_keep_spec (walkFuel b) 0 l (by rw [show (0 + 1 : Nat) = 1 from rfl]; exact hw)
        with ⟨k, hl, hcells, hterm, hcellp⟩
      refine Or.inr ⟨hd0, k, ?_, ?_, ?_, ?_⟩
      · rw [← Option.some.inj h, hl]
        exact List.map_congr_left fun i _ => by rw [show 0 + 1 + i = i + 1 by omega]
      · intro i hi
        rw [show i + 1 = 0 + 1 + i by omega]
        exact hcells i hi
      · rw [show k + 1 = 0 + 1 + k by omega]
        exact hterm
      · rw [show k + 1 = 0 + 1 + k by omega]
        exact hcellp

theorem dirWalk_nodup {b : Board} {p : Int} {loc d : Coord} (hd : d ∈ dirList) {lf : List Coord}
    (h : dirWalk b p loc d = some lf) : lf.Nodup := by
  rcases dirWalk_spec hd h with hnil | ⟨hd0, k, hl, _⟩
  · rw [hnil]
    exact List.nodup_nil
  · rw [hl]
    refine List.Nodup.map ?_ (List.nodup_range k)
    intro i j hij
    have := stepN_inj hd hd0 loc hij
    omega

theorem collectDirs_nodup {b : Board} {p : Int} {loc : Coord} :
    ∀ (ds : List Coord) (L : List Coord), ds.Nodup → (∀ d ∈ ds, d ∈ dirList) →
      collectDirs b p loc ds = some L → L.Nodup
  | [], L, _, _, h => by
    rw [collectDirs] at h
    rw [← Option.some.inj h]
    exact List.nodup_nil
  | d :: ds, L, hnd, hsub, h => by
    rw [collectDirs] at h
    rcases hw : dirWalk b p loc d with _ | lf <;> rw [hw] at h
    · exact Option.noConfusion h
    · rcases hc : collectDirs b p loc ds with _ | L2 <;> rw [hc] at h
      · exact Option.noConfusion h
      · rw [← Option.some.inj h]
        rw [List.nodup_append]
        refine ⟨dirWalk_nodup (hsub d (List.mem_cons_self d ds)) hw,
          collectDirs_nodup ds L2 (List.Nodup.of_cons hnd)
            (fun d2 h2 => hsub d2 (List.mem_cons_of_mem d h2)) hc, ?_⟩
        intro f hf1 hf2
        rcases dirWalk_spec (hsub d (List.mem_cons_self d ds)) hw with hnil | ⟨hd0, k, hl, _⟩
        · rw [hnil] at hf1
          exact absurd hf1 (List.not_mem_nil f)
        · rcases collectDirs_mem ds L2 hc f hf2 with ⟨d2, hd2, lf2, hw2, hf3⟩
          rcases dirWalk_spec (hsub d2 (List.mem_cons_of_mem d hd2)) hw2 with hnil2 |
            ⟨hd02, k2, hl2, _⟩
          · rw [hnil2] at hf3
            exact absurd hf3 (List.not_mem_nil f)
          · rw [hl] at hf1
            rw [hl2] at hf3
            rcases List.mem_map.mp hf1 with ⟨i, _, hi⟩
            rcases List.mem_map.mp hf3 with ⟨j, _, hj⟩
            have hdd : d ≠ d2 := fun hcon => (List.nodup_cons.mp hnd).1 (hcon ▸ hd2)
            exact stepN_cross (hsub d (List.mem_cons_self d ds))
              (hsub d2 (List.mem_cons_of_mem d hd2)) hd0 hd02 hdd loc
              (by omega) (by omega) (hi.trans hj.symm)

theorem walkFuel_setCell (b : Board) (loc : Coord) (v : Int) :
    walkFuel (setCell b loc v) = walkFuel b := by
  simp [walkFuel, boardWidth_setCell, boardHeight_setCell]

theorem walk_congr {b b2 : Board} {p : Int} {loc d : Coord}
    (hob : ∀ q, is_on_board b2 q = is_on_board b q)
    (hcell : ∀ q, q ≠ loc → is_on_board b q = true → cell b2 q = cell b q)
    (hd : d ∈ dirList) (hd0 : d ≠ (0, 0)) :
    ∀ (fuel m : Nat),
      walk b2 p d (stepN loc d (m + 1)) fuel = walk b p d (stepN loc d (m + 1)) fuel := by
  intro fuel
  induction fuel with
  | zero => intro m; rfl
  | succ n ih =>
    intro m
    have hne : stepN loc d (m + 1) ≠ loc := stepN_ne_base hd hd0 loc (by omega)
    by_cases hob1 : is_on_board b (stepN loc d (m + 1)) = true
    · rw [walk, walk, hob _, hcell _ hne hob1, stepN_next, ih (m + 1)]
    · rw [walk, walk, hob _, if_pos (by rwa [Bool.not_eq_true] at hob1),
        if_pos (by rwa [Bool.not_eq_true] at hob1)]

theorem walk_center_of_empty {b : Board} {p : Int} {loc : Coord} (h0 : cell b loc = 0)
    (n : Nat) : walk b p (0, 0) loc (n + 1) = some none := by
  rw [walk]
  by_cases hob : is_on_board b loc = true
  · rw [if_neg (by rw [hob]; exact fun hc => Bool.noConfusion hc), if_pos h0]
  · rw [if_pos (by rwa [Bool.not_eq_true] at hob)]

theorem walk_center_of_own {b : Board} {p : Int} {loc : Coord}
    (hob : is_on_board b loc = true) (hp : cell b loc = p) (hp0 : p ≠ 0) (n : Nat) :
    walk b p (0, 0) loc (n + 1) = some (some []) := by
  rw [walk, if_neg (by rw [hob]; exact fun hc => Bool.noConfusion hc),
    if_neg (by rw [hp]; exact hp0), if_pos hp]

theorem collectDirs_congr {b b2 : Board} {p : Int} {loc : Coord} :
    ∀ ds : List Coord, (∀ d ∈ ds, dirWalk b2 p loc d = dirWalk b p loc d) →
      collectDirs b2 p loc ds = collectDirs b p loc ds
  | [], _ => rfl
  | d :: ds, h => by
    rw [collectDirs, collectDirs, h d (List.mem_cons_self d ds),
      collectDirs_congr ds (fun d2 h2 => h d2 (List.mem_cons_of_mem d h2))]

/-- `play_move` computes `get_flipped` after writing the placed token, but the
result equals the flip list of the pre-move board: the scans never re-read the
placement cell. -/
theorem get_flippedF_post {b : Board} {p : Int} {loc : Coord}
    (hwf : WF b) (hloc : is_on_board b loc = true) (hc0 : cell b loc = 0) (hp : p ≠ 0) :
    get_flippedF (setCell b loc p) p loc = get_flippedF b p loc := by
  have hob : ∀ q, is_on_board (setCell b loc p) q = is_on_board b q := fun q =>
    is_on_board_setCell b loc q p
  have hcell : ∀ q, q ≠ loc → is_on_board b q = true → cell (setCell b loc p) q = cell b q :=
    fun q hq hq2 => cell_setCell_ne p hloc hq2 hq
  refine collectDirs_congr dirList fun d hd => ?_
  by_cases hd0 : d = (0, 0)
  · subst hd0
    have harg : (loc.1 + ((0 : Int), (0 : Int)).1, loc.2 + ((0 : Int), (0 : Int)).2) = loc := by
      simp
    rw [dirWalk, dirWalk, harg, walkFuel_setCell, walkFuel_succ,
      walk_center_of_empty hc0,
      walk_center_of_own (by rw [hob]; exact hloc) (cell_setCell_self p hwf hloc) hp]
  · rw [dirWalk, dirWalk, walkFuel_setCell, stepN_one,
      walk_congr hob hcell hd hd0 (walkFuel b) 0]

theorem get_flipped_post {b : Board} {p : Int} {loc : Coord}
    (hwf : WF b) (hloc : is_on_board b loc = true) (hc0 : cell b loc = 0) (hp : p ≠ 0) :
    get_flipped (setCell b loc p) p loc = get_flipped b p loc := by
  rw [get_flipped, get_flipped, get_flippedF_post hwf hloc hc0 hp]

theorem get_flippedF_mem {b : Board} {p : Int} {loc : Coord} {L : List Coord}
    (h : get_flippedF b p loc = some L) {f : Coord} (hf : f ∈ L) :
    is_on_board b f = true ∧ cell b f ≠ 0 ∧ cell b f ≠ p ∧ f ≠ loc := by
  rcases collectDirs_mem dirList L h f hf with ⟨d, hd, lf, hw, hflf⟩
  rcases dirWalk_spec hd hw with hnil | ⟨hd0, k, hl, hcells, _⟩
  · rw [hnil] at hflf
    exact absurd hflf (List.not_mem_nil f)
  · rw [hl] at hflf
    rcases List.mem_map.mp hflf with ⟨i, hi, hfi⟩
    rcases hcells i (List.mem_range.mp hi) with ⟨h1, h2, h3⟩
    have h4 : stepN loc d (i + 1) ≠ loc := stepN_ne_base hd hd0 loc (by omega)
    rw [hfi] at h1 h2 h3 h4
    exact ⟨h1, h2, h3, h4⟩

theorem get_flippedF_nodup {b : Board} {p : Int} {loc : Coord} {L : List Coord}
    (h : get_flippedF b p loc = some L) : L.Nodup :=
  collectDirs_nodup dirList L (by decide) (fun _ hd => hd) h

end WalkLemmas

section PlayMoveLemmas

theorem boardWidth_foldl_setCell (p : Int) :
    ∀ (L : List Coord) (b : Board),
      boardWidth (L.foldl (fun bb f => setCell bb f p) b) = boardWidth b
  | [], _ => rfl
  | f :: L, b => by
    rw [List.foldl_cons, boardWidth_foldl_setCell p L (setCell b f p), boardWidth_setCell]

theorem boardHeight_foldl_setCell (p : Int) :
    ∀ (L : List Coord) (b : Board),
      boardHeight (L.foldl (fun bb f => setCell bb f p) b) = boardHeight b
  | [], _ => rfl
  | f :: L, b => by
    rw [List.foldl_cons, boardHeight_foldl_setCell p L (setCell b f p), boardHeight_setCell]

theorem WF_foldl_setCell (p : Int) :
    ∀ (L : List Coord) {b : Board}, WF b → WF (L.foldl (fun bb f => setCell bb f p) b)
  | [], _, h => h
  | f :: L, b, h => by
    rw [List.foldl_cons]
    exact WF_foldl_setCell p L (WF_setCell f p h)

theorem cell_foldl_not_mem (p : Int) :
    ∀ (L : List Coord) (b : Board) (q : Coord), is_on_board b q = true →
      (∀ f ∈ L, is_on_board b f = true) → q ∉ L →
      cell (L.foldl (fun bb f => setCell bb f p) b) q = cell b q
  | [], _, _, _, _, _ => rfl
  | f :: L, b, q, hq, hL, hnm => by
    rw [List.foldl_cons,
      cell_foldl_not_mem p L (setCell b f p) q (by rw [is_on_board_setCell]; exact hq)
        (fun f2 h2 => by
          rw [is_on_board_setCell]
          exact hL f2 (List.mem_cons_of_mem f h2))
        (fun hc => hnm (List.mem_cons_of_mem f hc)),
      cell_setCell_ne p (hL f (List.mem_cons_self f L)) hq
        (fun hc => hnm (hc ▸ List.mem_cons_self f L))]

theorem cell_foldl_mem (p : Int) :
    ∀ (L : List Coord) {b : Board}, WF b → (∀ f ∈ L, is_on_board b f = true) → L.Nodup →
      ∀ f ∈ L, cell (L.foldl (fun bb f => setCell bb f p) b) f = p
  | [], _, _, _, _, f, hf => absurd hf (List.not_mem_nil f)
  | g :: L, b, hwf, hL, hnd, f, hf => by
    rw [List.foldl_cons]
    rcases List.mem_cons.mp hf with rfl | hf2
    · rw [cell_foldl_not_mem p L (setCell b f p) f
        (by rw [is_on_board_setCell]; exact hL f (List.mem_cons_self f L))
        (fun f2 h2 => by
          rw [is_on_board_setCell]
          exact hL f2 (List.mem_cons_of_mem f h2))
        (List.nodup_cons.mp hnd).1]
      exact cell_setCell_self p hwf (hL f (List.mem_cons_self f L))
    · exact cell_foldl_mem p L (WF_setCell g p hwf)
        (fun f2 h2 => by
          rw [is_on_board_setCell]
          exact hL f2 (List.mem_cons_of_mem g h2))
        (List.Nodup.of_cons hnd) f hf2

theorem foldl_setCell_count (p : Int) :
    ∀ (L : List Coord) {b : Board}, WF b → L.Nodup →
      (∀ f ∈ L, is_on_board b f = true ∧ cell b f ≠ p) →
      get_state_value (L.foldl (fun bb f => setCell bb f p) b) p =
        get_state_value b p + L.length
  | [], _, _, _, _ => by rw [List.foldl_nil, List.length_nil, Nat.add_zero]
  | f :: L, b, hwf, hnd, hL => by
    rw [List.foldl_cons]
    have hf := hL f (List.mem_cons_self f L)
    have hstep := get_state_value_setCell p p hwf hf.1
    rw [if_neg hf.2, if_pos rfl, Nat.add_zero] at hstep
    rw [foldl_setCell_count p L (WF_setCell f p hwf) (List.Nodup.of_cons hnd)
      (fun f2 h2 => by
        have h3 := hL f2 (List.mem_cons_of_mem f h2)
        refine ⟨by rw [is_on_board_setCell]; exact h3.1, ?_⟩
        rw [cell_setCell_ne p hf.1 h3.1
          (fun hc => (List.nodup_cons.mp hnd).1 (hc ▸ h2))]
        exact h3.2), hstep, List.length_cons]
    omega

end PlayMoveLemmas

section AvailLemmas

theorem mem_get_available_moves {b : Board} {p : Int} {m : Coord} :
    m ∈ get_available_moves b p ↔
      ∃ x y : Nat, x < boardWidth b ∧ y < boardHeight b ∧ m = ((x : Int), (y : Int)) ∧
        cell b m = 0 ∧ get_flipped b p m ≠ [] := by
  simp only [get_available_moves, List.mem_flatMap, List.mem_filterMap, List.mem_range]
  constructor
  · rintro ⟨y, hy, x, hx, hich⟩
    by_cases hcond : cell b ((x : Int), (y : Int)) = 0 ∧ get_flipped b p ((x : Int), (y : Int)) ≠ []
    · rw [if_pos hcond] at hich
      rcases Option.some.inj hich with rfl
      exact ⟨x, y, hx, hy, rfl, hcond.1, hcond.2⟩
    · rw [if_neg hcond] at hich
      exact Option.noConfusion hich
  · rintro ⟨x, y, hx, hy, rfl, h0, hne⟩
    exact ⟨y, hy, x, hx, by rw [if_pos ⟨h0, hne⟩]⟩

theorem avail_on_board {b : Board} {p : Int} {m : Coord} (h : m ∈ get_available_moves b p) :
    is_on_board b m = true := by
  rcases mem_get_available_moves.mp h with ⟨x, y, hx, hy, rfl, _, _⟩
  rw [is_on_board_iff]
  refine ⟨by positivity, by positivity, ?_, ?_⟩ <;> push_cast <;> omega

theorem avail_cell_empty {b : Board} {p : Int} {m : Coord} (h : m ∈ get_available_moves b p) :
    cell b m = 0 :=
  (mem_get_available_moves.mp h).choose_spec.choose_spec.2.2.2.1

theorem avail_flipped_ne {b : Board} {p : Int} {m : Coord} (h : m ∈ get_available_moves b p) :
    get_flipped b p m ≠ [] :=
  (mem_get_available_moves.mp h).choose_spec.choose_spec.2.2.2.2

theorem pairwise_filterMap_of {α β : Type} (R : β → β → Prop) (f : α → Option β) :
    ∀ l : List α, l.Pairwise (fun a b => ∀ c, f a = some c → ∀ d, f b = some d → R c d) →
      (l.filterMap f).Pairwise R
  | [], _ => List.Pairwise.nil
  | a :: l, h => by
    rw [List.filterMap_cons]
    rcases List.pairwise_cons.mp h with ⟨h1, h2⟩
    rcases hfa : f a with _ | c
    · exact pairwise_filterMap_of R f l h2
    · rw [List.pairwise_cons]
      refine ⟨?_, pairwise_filterMap_of R f l h2⟩
      intro d hd
      rcases List.mem_filterMap.mp hd with ⟨b2, hb2, hfb2⟩
      exact h1 b2 hb2 c hfa d hfb2

theorem pairwise_flatMap_of {α β : Type} (R : β → β → Prop) (f : α → List β) :
    ∀ l : List α, (∀ a ∈ l, (f a).Pairwise R) →
      l.Pairwise (fun a b => ∀ c ∈ f a, ∀ d ∈ f b, R c d) → (l.flatMap f).Pairwise R
  | [], _, _ => List.Pairwise.nil
  | a :: l, hall, h => by
    rw [List.flatMap_cons]
    rcases List.pairwise_cons.mp h with ⟨h1, h2⟩
    apply List.pairwise_append.mpr
    refine ⟨hall a (List.mem_cons_self a l),
      pairwise_flatMap_of R f l (fun a2 ha2 => hall a2 (List.mem_cons_of_mem a ha2)) h2, ?_⟩
    intro x hx y hy
    rcases List.mem_flatMap.mp hy with ⟨a2, ha2, hy2⟩
    exact h1 a2 ha2 x hx y hy2

theorem range_pairwise_lt : ∀ n : Nat, (List.range n).Pairwise (· < ·)
  | 0 => List.Pairwise.nil
  | n + 1 => by
    rw [List.range_succ]
    apply List.pairwise_append.mpr
    refine ⟨range_pairwise_lt n, List.pairwise_singleton _ _, ?_⟩
    intro x hx y hy
    rw [List.mem_singleton] at hy
    rw [hy]
    exact List.mem_range.mp hx

/-- `_get_available_moves` lists moves in row-major scan order. -/
theorem get_available_moves_pairwise (b : Board) (p : Int) :
    (get_available_moves b p).Pairwise scanBefore := by
  rw [get_available_moves]
  apply pairwise_flatMap_of
  · intro y _
    apply pairwise_filterMap_of
    refine (range_pairwise_lt (boardWidth b)).imp ?_
    intro x1 x2 hlt c hc d hd
    have hc2 : c = ((x1 : Int), (y : Int)) := by
      by_cases h1 : cell b ((x1 : Int), (y : Int)) = 0 ∧
          get_flipped b p ((x1 : Int), (y : Int)) ≠ []
      · rw [if_pos h1] at hc
        exact (Option.some.inj hc).symm
      · rw [if_neg h1] at hc
        exact Option.noConfusion hc
    have hd2 : d = ((x2 : Int), (y : Int)) := by
      by_cases h1 : cell b ((x2 : Int), (y : Int)) = 0 ∧
          get_flipped b p ((x2 : Int), (y : Int)) ≠ []
      · rw [if_pos h1] at hd
        exact (Option.some.inj hd).symm
      · rw [if_neg h1] at hd
        exact Option.noConfusion hd
    rw [hc2, hd2]
    refine Or.inr ⟨rfl, ?_⟩
    show (x1 : Int) < (x2 : Int)
    exact_mod_cast hlt
  · refine (range_pairwise_lt (boardHeight b)).imp ?_
    intro y1 y2 hlt c hc d hd
    rcases List.mem_filterMap.mp hc with ⟨x1, _, hc2⟩
    rcases List.mem_filterMap.mp hd with ⟨x2, _, hd2⟩
    have hc3 : c = ((x1 : Int), (y1 : Int)) := by
      by_cases h1 : cell b ((x1 : Int), (y1 : Int)) = 0 ∧
          get_flipped b p ((x1 : Int), (y1 : Int)) ≠ []
      · rw [if_pos h1] at hc2
        exact (Option.some.inj hc2).symm
      · rw [if_neg h1] at hc2
        exact Option.noConfusion hc2
    have hd3 : d = ((x2 : Int), (y2 : Int)) := by
      by_cases h1 : cell b ((x2 : Int), (y2 : Int)) = 0 ∧
          get_flipped b p ((x2 : Int), (y2 : Int)) ≠ []
      · rw [if_pos h1] at hd2
        exact (Option.some.inj hd2).symm
      · rw [if_neg h1] at hd2
        exact Option.noConfusion hd2
    rw [hc3, hd3]
    refine Or.inl ?_
    show (y1 : Int) < (y2 : Int)
    exact_mod_cast hlt

end AvailLemmas

section BestMoveLemmas

theorem bestStep_start (w : Nat) (F : Coord → Score) (m : Coord) :
    bestStep w F (none, ⊥) m = (some m, F m) := by
  by_cases hb : (⊥ : Score) < F m
  · simp only [bestStep, if_pos hb]
    split_ifs <;> rfl
  · have hbot : F m = ⊥ := by rwa [bot_lt_iff_ne_bot, not_not] at hb
    simp [bestStep, hbot]

theorem bestStep_some_cases (w : Nat) (F : Coord → Score) (r0 m : Coord) :
    (bestStep w F (some r0, F r0) m = (some m, F m) ∧
      (F r0 < F m ∨ (F m = F r0 ∧ get_location_type r0 w < get_location_type m w))) ∨
    (bestStep w F (some r0, F r0) m = (some r0, F r0) ∧
      ¬ F r0 < F m ∧ (F m = F r0 → get_location_type m w ≤ get_location_type r0 w)) := by
  by_cases h1 : F r0 < F m
  · refine Or.inl ⟨?_, Or.inl h1⟩
    simp only [bestStep, if_pos h1]
    split_ifs <;> rfl
  · by_cases h2 : F m = F r0
    · by_cases h3 : get_location_type r0 w < get_location_type m w
      · refine Or.inl ⟨?_, Or.inr ⟨h2, h3⟩⟩
        simp [bestStep, h1, h2, h3]
      · refine Or.inr ⟨?_, h1, fun _ => not_lt.mp h3⟩
        simp [bestStep, h1, h2, h3]
    · refine Or.inr ⟨?_, h1, fun hc => absurd hc h2⟩
      simp [bestStep, h1, h2]

/-- Full characterisation of the `get_best_move` accumulator loop, starting
from a current best `(some r0, score r0)` whose move precedes every remaining
candidate in scan order: the final answer has maximal score, maximal location
class among score ties, and is the scan-first among full ties. -/
theorem bestFold_inv (w : Nat) (F : Coord → Score) :
    ∀ (ms : List Coord) (r0 : Coord), ms.Pairwise scanBefore →
      (∀ m ∈ ms, scanBefore r0 m) →
      ∃ r : Coord, ms.foldl (bestStep w F) (some r0, F r0) = (some r, F r) ∧
        (r = r0 ∨ r ∈ ms) ∧
        (∀ m, m = r0 ∨ m ∈ ms → F m ≤ F r) ∧
        (∀ m, m = r0 ∨ m ∈ ms → F m = F r →
          get_location_type m w ≤ get_location_type r w) ∧
        (F r0 = F r → get_location_type r0 w = get_location_type r w → r = r0) ∧
        (∀ m, m = r0 ∨ m ∈ ms → F m = F r →
          get_location_type m w = get_location_type r w → r = m ∨ scanBefore r m) := by
  intro ms
  induction ms with
  | nil =>
    intro r0 _ _
    refine ⟨r0, rfl, Or.inl rfl, ?_, ?_, fun _ _ => rfl, ?_⟩
    · rintro m (rfl | hm)
      · exact le_rfl
      · exact absurd hm (List.not_mem_nil m)
    · rintro m (rfl | hm) _
      · exact le_rfl
      · exact absurd hm (List.not_mem_nil m)
    · rintro m (rfl | hm) _ _
      · exact Or.inl rfl
      · exact absurd hm (List.not_mem_nil m)
  | cons m1 ms ih =>
    intro r0 hpw hord
    rcases List.pairwise_cons.mp hpw with ⟨hm1ms, hpw2⟩
    have hordtl : ∀ m ∈ ms, scanBefore r0 m := fun m hm => hord m (List.mem_cons_of_mem m1 hm)
    rcases bestStep_some_cases w F r0 m1 with ⟨hstep, hrepl⟩ | ⟨hstep, hk1, hk2⟩
    · -- the first candidate replaces the current best
      rcases ih m1 hpw2 hm1ms with ⟨r, hfold, hmem, hmax, htype, hfirst, horder⟩
      rw [List.foldl_cons, hstep]
      refine ⟨r, hfold, ?_, ?_, ?_, ?_, ?_⟩
      · rcases hmem with rfl | hmem2
        · exact Or.inr (List.mem_cons_self r ms)
        · exact Or.inr (List.mem_cons_of_mem m1 hmem2)
      · rintro m (rfl | hm)
        · rcases hrepl with hlt | ⟨heq, _⟩
          · exact le_trans (le_of_lt hlt) (hmax m1 (Or.inl rfl))
          · rw [← heq]
            exact hmax m1 (Or.inl rfl)
        · rcases List.mem_cons.mp hm with rfl | hm2
          · exact hmax m (Or.inl rfl)
          · exact hmax m (Or.inr hm2)
      · rintro m (rfl | hm) htie
        · rcases hrepl with hlt | ⟨heq, hty⟩
          · have h5 : F r < F m1 := by rw [← htie]; exact hlt
            have : F r < F r := lt_of_lt_of_le h5 (hmax m1 (Or.inl rfl))
            exact absurd this (lt_irrefl _)
          · exact le_trans (le_of_lt hty) (htype m1 (Or.inl rfl) (by rw [heq]; exact htie))
        · rcases List.mem_cons.mp hm with rfl | hm2
          · exact htype m (Or.inl rfl) htie
          · exact htype m (Or.inr hm2) htie
      · intro htie hty
        rcases hrepl with hlt | ⟨heq, hty2⟩
        · have h5 : F r < F m1 := by rw [← htie]; exact hlt
          have : F r < F r := lt_of_lt_of_le h5 (hmax m1 (Or.inl rfl))
          exact absurd this (lt_irrefl _)
        · have h1 : get_location_type r0 w < get_location_type r w :=
            lt_of_lt_of_le hty2 (htype m1 (Or.inl rfl) (by rw [heq]; exact htie))
          rw [hty] at h1
          exact absurd h1 (lt_irrefl _)
      · rintro m (rfl | hm) htie hty
        · -- a full tie with the replaced r0 cannot happen
          rcases hrepl with hlt | ⟨heq, hty2⟩
          · have h5 : F r < F m1 := by rw [← htie]; exact hlt
            have : F r < F r := lt_of_lt_of_le h5 (hmax m1 (Or.inl rfl))
            exact absurd this (lt_irrefl _)
          · have h1 : get_location_type m w < get_location_type r w :=
              lt_of_lt_of_le hty2 (htype m1 (Or.inl rfl) (by rw [heq]; exact htie))
            rw [hty] at h1
            exact absurd h1 (lt_irrefl _)
        · rcases List.mem_cons.mp hm with rfl | hm2
          · exact horder m (Or.inl rfl) htie hty
          · exact horder m (Or.inr hm2) htie hty
    · -- the current best is kept
      rcases ih r0 hpw2 hordtl with ⟨r, hfold, hmem, hmax, htype, hfirst, horder⟩
      rw [List.foldl_cons, hstep]
      refine ⟨r, hfold, ?_, ?_, ?_, hfirst, ?_⟩
      · rcases hmem with rfl | hmem2
        · exact Or.inl rfl
        · exact Or.inr (List.mem_cons_of_mem m1 hmem2)
      · rintro m (rfl | hm)
        · exact hmax m (Or.inl rfl)
        · rcases List.mem_cons.mp hm with rfl | hm2
          · exact le_trans (not_lt.mp hk1) (hmax r0 (Or.inl rfl))
          · exact hmax m (Or.inr hm2)
      · rintro m (rfl | hm) htie
        · exact htype m (Or.inl rfl) htie
        · rcases List.mem_cons.mp hm with rfl | hm2
          · -- the kept case: the head's score can reach the final score only
            -- through the initial score, with a type no better than r0's
            have hr0r : F r0 ≤ F r := hmax r0 (Or.inl rfl)
            have hmr0 : F m ≤ F r0 := not_lt.mp hk1
            have heq : F m = F r0 := le_antisymm hmr0 (by rw [htie]; exact hr0r)
            have h2 : F r0 = F r := by rw [← heq, htie]
            exact le_trans (hk2 heq) (htype r0 (Or.inl rfl) h2)
          · exact htype m (Or.inr hm2) htie
      · rintro m (rfl | hm) htie hty
        · exact horder m (Or.inl rfl) htie hty
        · rcases List.mem_cons.mp hm with rfl | hm2
          · have hr0r : F r0 ≤ F r := hmax r0 (Or.inl rfl)
            have hmr0 : F m ≤ F r0 := not_lt.mp hk1
            have heq : F m = F r0 := le_antisymm hmr0 (by rw [htie]; exact hr0r)
            have h2 : F r0 = F r := by rw [← heq, htie]
            have h3 : get_location_type r0 w = get_location_type r w := by
              refine le_antisymm (htype r0 (Or.inl rfl) h2) ?_
              rw [← hty]
              exact hk2 heq
            have h4 : r = r0 := hfirst h2 h3
            rw [h4]
            exact Or.inr (hord m (List.mem_cons_self m ms))
          · exact horder m (Or.inr hm2) htie hty

end BestMoveLemmas

section TerminalLemmas

theorem rowCount_zero_iff (p : Int) : ∀ row : List Int, rowCount p row = 0 ↔ ∀ c ∈ row, c ≠ p
  | [] => by simp [rowCount]
  | c :: cs => by
    rw [rowCount]
    constructor
    · intro h c2 hc2
      by_cases hcp : c = p
      · rw [if_pos hcp] at h
        exact absurd h (by omega)
      · rw [if_neg hcp] at h
        rcases List.mem_cons.mp hc2 with rfl | hc3
        · exact hcp
        · exact (rowCount_zero_iff p cs).mp (by omega) c2 hc3
    · intro h
      rw [if_neg (h c (List.mem_cons_self c cs)), (rowCount_zero_iff p cs).mpr
        (fun c2 hc2 => h c2 (List.mem_cons_of_mem c hc2))]

theorem mem_iff_getD {α : Type} (d : α) :
    ∀ (l : List α) (x : α), x ∈ l → ∃ i, i < l.length ∧ l.getD i d = x
  | [], x, h => absurd h (List.not_mem_nil x)
  | a :: l, x, h => by
    rcases List.mem_cons.mp h with rfl | h2
    · exact ⟨0, by simp, rfl⟩
    · rcases mem_iff_getD d l x h2 with ⟨i, hi, hget⟩
      exact ⟨i + 1, by simpa using hi, hget⟩

theorem get_state_value_zero_iff {b : Board} (hwf : WF b) :
    get_state_value b 0 = 0 ↔ ∀ q : Coord, is_on_board b q = true → cell b q ≠ 0 := by
  rw [get_state_value, List.sum_eq_zero_iff]
  constructor
  · intro h q hq h0
    rcases is_on_board_iff.mp hq with ⟨hx1, hy1, hy2, hx2⟩
    have hylt : q.2.toNat < b.length := by simp only [boardHeight] at hy2; omega
    have hrow := h (rowCount 0 (b.getD q.2.toNat []))
      (List.mem_map.mpr ⟨b.getD q.2.toNat [], getD_mem b q.2.toNat [] hylt, rfl⟩)
    have hxlt : q.1.toNat < (b.getD q.2.toNat []).length := by
      rw [hwf.2 _ (getD_mem b q.2.toNat [] hylt)]
      simp only [boardWidth] at hx2 ⊢
      omega
    have hmemc : cell b q ∈ b.getD q.2.toNat [] := by
      rw [cell]
      exact getD_mem _ q.1.toNat 0 hxlt
    exact (rowCount_zero_iff 0 _).mp hrow (cell b q) hmemc h0
  · intro h n hn
    rcases List.mem_map.mp hn with ⟨row, hrow, rfl⟩
    rcases mem_iff_getD [] b row hrow with ⟨y, hy, hgety⟩
    refine (rowCount_zero_iff 0 row).mpr ?_
    intro c hc hc0
    rcases mem_iff_getD 0 row c hc with ⟨x, hx, hgetx⟩
    have hq : is_on_board b ((x : Int), (y : Int)) = true := by
      rw [is_on_board_iff]
      have hxw : x < boardWidth b := by
        rw [← hwf.2 row hrow]
        exact hx
      refine ⟨by positivity, by positivity, ?_, ?_⟩
      · simp only [boardHeight]
        omega
      · omega
    refine h ((x : Int), (y : Int)) hq ?_
    show (b.getD ((y : Int)).toNat []).getD ((x : Int)).toNat 0 = 0
    rw [show ((y : Int)).toNat = y from rfl, show ((x : Int)).toNat = x from rfl,
      hgety, hgetx, hc0]

end TerminalLemmas

section StoreLemmas

theorem storeAlloc_preserves (σ : Store) (g g2 : Board) :
    ∀ k, k < σ.length → ((σ ++ [g]).set σ.length g2).getD k [] = σ.getD k [] := by
  intro k hk
  rw [getD_set_ne _ (by omega), getD_append_left _ _ _ _ hk]

theorem storeGetChildren_preserves (σ : Store) (j : Nat) (p : Int) :
    σ.length ≤ (storeGetChildren σ j p).1.length ∧
    ∀ k, k < σ.length → (storeGetChildren σ j p).1.getD k [] = σ.getD k [] := by
  rw [storeGetChildren]
  generalize get_available_moves (σ.getD j []) p = ms
  generalize hacc : (σ, ([] : List Nat)) = acc
  have hlen : σ.length ≤ acc.1.length := by rw [← hacc]
  have hget : ∀ k, k < σ.length → acc.1.getD k [] = σ.getD k [] := by
    rw [← hacc]
    exact fun _ _ => rfl
  clear hacc
  induction ms generalizing acc with
  | nil => exact ⟨hlen, hget⟩
  | cons m ms ih =>
    rw [List.foldl_cons]
    refine ih _ ?_ ?_
    · simp only [storeNewFrom, storePlayMove, List.length_set, List.length_append]
      omega
    · intro k hk
      simp only [storeNewFrom, storePlayMove]
      rw [getD_set_ne _ (by omega), getD_append_left _ _ _ _ (by omega)]
      exact hget k hk

theorem storeLoop_preserves (pr : Bool) (beta : Score)
    (g : Store → Nat → Score → Store × Score)
    (hg : ∀ σ k x, σ.length ≤ (g σ k x).1.length ∧
      ∀ i, i < σ.length → (g σ k x).1.getD i [] = σ.getD i []) :
    ∀ (ks : List Nat) (σ : Store) (a best : Score),
      σ.length ≤ (storeLoop pr beta g ks σ a best).1.length ∧
      ∀ i, i < σ.length → (storeLoop pr beta g ks σ a best).1.getD i [] = σ.getD i []
  | [], σ, a, best => ⟨le_rfl, fun _ _ => rfl⟩
  | k :: ks, σ, a, best => by
    rw [storeLoop]
    rcases hg σ k (sneg a) with ⟨hl1, hg1⟩
    by_cases hpr : pr = true
    · rw [if_pos hpr]
      by_cases hcut : beta ≤ max a (g σ k (sneg a)).2
      · rw [if_pos hcut]
        exact ⟨hl1, hg1⟩
      · rw [if_neg hcut]
        rcases storeLoop_preserves pr beta g hg ks (g σ k (sneg a)).1
          (max a (g σ k (sneg a)).2) (max best (g σ k (sneg a)).2) with ⟨hl2, hg2⟩
        exact ⟨le_trans hl1 hl2, fun i hi => by
          rw [hg2 i (by omega), hg1 i hi]⟩
    · rw [if_neg hpr]
      rcases storeLoop_preserves pr beta g hg ks (g σ k (sneg a)).1 a
        (max best (g σ k (sneg a)).2) with ⟨hl2, hg2⟩
      exact ⟨le_trans hl1 hl2, fun i hi => by
        rw [hg2 i (by omega), hg1 i hi]⟩

theorem storeNegamax_preserves :
    ∀ (d : Nat) (pr : Bool) (σ : Store) (j : Nat) (p : Int) (a beta : Score),
      σ.length ≤ (storeNegamax d pr σ j p a beta).1.length ∧
      ∀ k, k < σ.length → (storeNegamax d pr σ j p a beta).1.getD k [] = σ.getD k []
  | 0, pr, σ, j, p, a, beta => ⟨le_rfl, fun _ _ => rfl⟩
  | d + 1, pr, σ, j, p, a, beta => by
    rw [storeNegamax]
    by_cases ht : is_state_terminal (σ.getD j []) = true
    · rw [if_pos ht]
      exact ⟨le_rfl, fun _ _ => rfl⟩
    · rw [if_neg ht]
      rcases storeGetChildren_preserves σ j (other_player p) with ⟨hl1, hg1⟩
      rcases storeLoop_preserves pr beta
        (fun σ2 k x => storeNegamax d pr σ2 k (other_player p) (sneg beta) x)
        (fun σ2 k x => storeNegamax_preserves d pr σ2 k (other_player p) (sneg beta) x)
        (storeGetChildren σ j (other_player p)).2 (storeGetChildren σ j (other_player p)).1
        a ⊥ with ⟨hl2, hg2⟩
      exact ⟨le_trans hl1 hl2, fun k hk => by
        rw [hg2 k (by omega), hg1 k hk]⟩

theorem storeBestFold_preserves (w : Nat) (p : Int) (plies : Nat) (j : Nat) :
    ∀ (ms : List Coord) (σ : Store) (acc : Option Coord × Score),
      σ.length ≤ (storeBestFold w p plies j ms σ acc).1.length ∧
      ∀ k, k < σ.length → (storeBestFold w p plies j ms σ acc).1.getD k [] = σ.getD k []
  | [], σ, acc => ⟨le_rfl, fun _ _ => rfl⟩
  | m :: ms, σ, acc => by
    rw [storeBestFold]
    set σ1 := storePlayMove (storeNewFrom σ j).1 (storeNewFrom σ j).2 m p with hσ1
    have hl1 : σ.length ≤ σ1.length := by
      simp only [hσ1, storeNewFrom, storePlayMove, List.length_set, List.length_append]
      omega
    have hg1 : ∀ k, k < σ.length → σ1.getD k [] = σ.getD k [] := by
      intro k hk
      simp only [hσ1, storeNewFrom, storePlayMove]
      rw [getD_set_ne _ (by omega), getD_append_left _ _ _ _ hk]
    rcases storeNegamax_preserves (plies - 1) true σ1 (storeNewFrom σ j).2 p ⊥ ⊤ with ⟨hl2, hg2⟩
    rcases storeBestFold_preserves w p plies j ms
      (storeNegamax (plies - 1) true σ1 (storeNewFrom σ j).2 p ⊥ ⊤).1
      (bestStep w (fun _ => (storeNegamax (plies - 1) true σ1 (storeNewFrom σ j).2 p ⊥ ⊤).2)
        acc m) with ⟨hl3, hg3⟩
    refine ⟨le_trans hl1 (le_trans hl2 hl3), fun k hk => ?_⟩
    rw [hg3 k (by omega), hg2 k (by omega), hg1 k hk]

theorem storeGetChildren_indices (σ : Store) (j : Nat) (p : Int) :
    ∀ j2 ∈ (storeGetChildren σ j p).2, σ.length ≤ j2 := by
  rw [storeGetChildren]
  generalize get_available_moves (σ.getD j []) p = ms
  generalize hacc : (σ, ([] : List Nat)) = acc
  have hlen : σ.length ≤ acc.1.length := by rw [← hacc]
  have hmem : ∀ j2 ∈ acc.2, σ.length ≤ j2 := by
    rw [← hacc]
    intro j2 hj2
    exact absurd hj2 (List.not_mem_nil j2)
  clear hacc
  induction ms generalizing acc with
  | nil => exact hmem
  | cons m ms ih =>
    rw [List.foldl_cons]
    refine ih _ ?_ ?_
    · simp only [storeNewFrom, storePlayMove, List.length_set, List.length_append]
      omega
    · intro j2 hj2
      rcases List.mem_append.mp hj2 with hj3 | hj3
      · exact hmem j2 hj3
      · rw [List.mem_singleton] at hj3
        simp only [storeNewFrom] at hj3
        omega

theorem storePickMove_preserves (σ : Store) (snap : Nat) (p : Int) (plies : Nat) :
    ∀ k, k < σ.length → (storePickMove σ snap p plies).1.getD k [] = σ.getD k [] := by
  intro k hk
  rw [storePickMove, storeGetBestMove]
  rcases storeBestFold_preserves
    (boardHeight ((storeNewFrom σ snap).1.getD (storeNewFrom σ snap).2 [])) p plies
    (storeNewFrom σ snap).2
    (get_available_moves ((storeNewFrom σ snap).1.getD (storeNewFrom σ snap).2 []) p)
    (storeNewFrom σ snap).1 (none, ⊥) with ⟨_, hg⟩
  rw [hg k (by simp only [storeNewFrom, List.length_append]; omega)]
  simp only [storeNewFrom]
  exact getD_append_left _ _ _ _ hk

end StoreLemmas

section Claims

/-- Claim C1: the claim states that when the side to move inside `negamax` has
no available moves on a non-terminal board, the search passes (recurses with
the opponent on the same board) and the returned value is a finite
disc-count-derived score, never an infinite sentinel.  The code does not do
this: on the board `[[1,2,0,0],0…]`, which is not terminal and on which the
side to move (player 2, the opponent of the `player = 1` argument) has no
moves, `negamax` at depth 1 skips its empty child loop and returns
`-(-inf) = +inf` — the infinite sentinel, with or without pruning. -/
theorem claim_C1 :
    other_player 1 = 2 ∧
    is_state_terminal [[1, 2, 0, 0], [0, 0, 0, 0], [0, 0, 0, 0], [0, 0, 0, 0]] = false ∧
    get_available_moves [[1, 2, 0, 0], [0, 0, 0, 0], [0, 0, 0, 0], [0, 0, 0, 0]] 2 = [] ∧
    negamax 1 true [[1, 2, 0, 0], [0, 0, 0, 0], [0, 0, 0, 0], [0, 0, 0, 0]] 1 ⊥ ⊤ = ⊤ ∧
    negamax 1 false [[1, 2, 0, 0], [0, 0, 0, 0], [0, 0, 0, 0], [0, 0, 0, 0]] 1 ⊥ ⊤ = ⊤ := by
  refine ⟨rfl, by decide, by decide, by decide, by decide⟩

/-- Claim C2: negamax with alpha-beta pruning enabled, called on the full
window `(-inf, +inf)` as `get_best_move` does, returns the same value as
full-width negamax with pruning disabled (whose window arguments are dead),
and the value is independent of the visitation order of children: `NegamaxR`
allows every node to shuffle its child list arbitrarily, and any two runs —
one pruning, one not, with any shuffles — agree, both equalling the canonical
full-width value. -/
theorem claim_C2 {d : Nat} {b : Board} {p : Int} {a beta v1 v2 : Score}
    (h1 : NegamaxR true d b p ⊥ ⊤ v1) (h2 : NegamaxR false d b p a beta v2) :
    v1 = v2 ∧ v1 = negamaxFW d b p := by
  have hkm := negamaxR_km d h1 bot_lt_top
  rw [sneg_bot, sneg_top, min_eq_left le_top, max_eq_left bot_le] at hkm
  have h1v : v1 = negamaxFW d b p := le_antisymm hkm.2 hkm.1
  exact ⟨by rw [h1v, negamaxR_fw d h2], h1v⟩

theorem claim_C2_witness :
    negamax 2 true (init_board 4) 1 ⊥ ⊤ = negamax 2 false (init_board 4) 1 ⊥ ⊤ ∧
    negamax 2 true (init_board 4) 1 ⊥ ⊤ = negamaxFW 2 (init_board 4) 1 :=
  claim_C2 (negamax_R 2 true (init_board 4) 1 ⊥ ⊤) (negamax_R 2 false (init_board 4) 1 ⊥ ⊤)

/-- Claim C3: the claim states that `get_flipped` walks outward only in the 8
directions of the 3×3 neighborhood minus the center and terminates for every
on-board coordinate and player.  In fact the Python loop also visits the
`(0, 0)` offset (it is in `dirList`, the literal iteration of
`for x in range(-1,2): for y in range(-1,2)`), and on a coordinate holding a
disc of the opposing colour that stationary scan appends forever: on the
starting 8×8 board, for player 2 at `(3, 3)` (which holds a `1` disc), no
amount of fuel makes the walk break, so `get_flipped` never terminates. -/
theorem claim_C3 :
    ((0, 0) : Coord) ∈ dirList ∧
    is_on_board (init_board 8) (3, 3) = true ∧
    cell (init_board 8) (3, 3) = 1 ∧
    WalkDiverges (init_board 8) 2 (0, 0) (3, 3) ∧
    get_flippedF (init_board 8) 2 (3, 3) = none := by
  refine ⟨by decide, by decide, by decide,
    walk_center_diverges (by decide) (by decide) (by decide), by decide⟩

/-- Claim C4: `_is_state_terminal` returns true iff the board has no empty
cells or neither player has an available move; a position where some player
still has a move (in particular exactly one of them) is not terminal. -/
theorem claim_C4 {b : Board} (hwf : WF b) :
    (is_state_terminal b = true ↔
      ((∀ q : Coord, is_on_board b q = true → cell b q ≠ 0) ∨
        (get_available_moves b 1 = [] ∧ get_available_moves b 2 = []))) ∧
    (get_available_moves b 1 ≠ [] → is_state_terminal b = false) ∧
    (get_available_moves b 2 ≠ [] → is_state_terminal b = false) := by
  have hne1 : get_available_moves b 1 ≠ [] → get_state_value b 0 ≠ 0 := by
    intro hne h0
    rcases List.exists_mem_of_ne_nil _ hne with ⟨m, hm⟩
    exact (get_state_value_zero_iff hwf).mp h0 m (avail_on_board hm) (avail_cell_empty hm)
  have hne2 : get_available_moves b 2 ≠ [] → get_state_value b 0 ≠ 0 := by
    intro hne h0
    rcases List.exists_mem_of_ne_nil _ hne with ⟨m, hm⟩
    exact (get_state_value_zero_iff hwf).mp h0 m (avail_on_board hm) (avail_cell_empty hm)
  refine ⟨?_, ?_, ?_⟩
  · rw [is_state_terminal]
    by_cases h0 : get_state_value b 0 = 0
    · rw [if_pos h0]
      exact iff_of_true rfl (Or.inl ((get_state_value_zero_iff hwf).mp h0))
    · rw [if_neg h0]
      by_cases ha1 : get_available_moves b 1 ≠ []
      · rw [if_pos ha1]
        refine iff_of_false (fun hc => Bool.noConfusion hc) ?_
        rintro ((hall : ∀ _, _) | ⟨he1, _⟩)
        · exact h0 ((get_state_value_zero_iff hwf).mpr hall)
        · exact ha1 he1
      · rw [if_neg ha1]
        rw [not_not] at ha1
        by_cases ha2 : get_available_moves b 2 ≠ []
        · rw [if_pos ha2]
          refine iff_of_false (fun hc => Bool.noConfusion hc) ?_
          rintro ((hall : ∀ _, _) | ⟨_, he2⟩)
          · exact h0 ((get_state_value_zero_iff hwf).mpr hall)
          · exact ha2 he2
        · rw [if_neg ha2]
          rw [not_not] at ha2
          exact iff_of_true rfl (Or.inr ⟨ha1, ha2⟩)
  · intro hne
    rw [is_state_terminal, if_neg (hne1 hne), if_pos hne]
  · intro hne
    rw [is_state_terminal, if_neg (hne2 hne)]
    by_cases ha1 : get_available_moves b 1 ≠ []
    · rw [if_pos ha1]
    · rw [if_neg ha1, if_pos hne]

theorem claim_C4_witness :
    WF (init_board 4) ∧
    ((is_state_terminal (init_board 4) = true ↔
      ((∀ q : Coord, is_on_board (init_board 4) q = true → cell (init_board 4) q ≠ 0) ∨
        (get_available_moves (init_board 4) 1 = [] ∧
          get_available_moves (init_board 4) 2 = []))) ∧
    (get_available_moves (init_board 4) 1 ≠ [] → is_state_terminal (init_board 4) = false) ∧
    (get_available_moves (init_board 4) 2 ≠ [] → is_state_terminal (init_board 4) = false)) :=
  ⟨⟨by decide, by decide⟩, claim_C4 ⟨by decide, by decide⟩⟩

/-- Claim C5: every coordinate returned by `get_flipped` for a player on an
empty on-board cell holds an opposing disc (`3 - p`, given three-valued
cells) lying strictly between the placement cell and a same-player disc along
a straight ray in one of the 8 proper directions, with every strictly
intermediate cell also an opposing disc. -/
theorem claim_C5 {b : Board} {p : Int} {loc f : Coord}
    (hwf : WF b) (hp : p = 1 ∨ p = 2)
    (hcells : ∀ row ∈ b, ∀ c ∈ row, c = 0 ∨ c = 1 ∨ c = 2)
    (hloc : is_on_board b loc = true) (h0 : cell b loc = 0)
    (hf : f ∈ get_flipped b p loc) :
    ∃ d ∈ dirList, d ≠ ((0 : Int), (0 : Int)) ∧ ∃ j k : Nat, 1 ≤ j ∧ j < k ∧
      f = stepN loc d j ∧
      is_on_board b (stepN loc d k) = true ∧ cell b (stepN loc d k) = p ∧
      ∀ i, 1 ≤ i → i < k → is_on_board b (stepN loc d i) = true ∧
        cell b (stepN loc d i) = 3 - p := by
  have hcellval : ∀ q : Coord, is_on_board b q = true →
      cell b q = 0 ∨ cell b q = 1 ∨ cell b q = 2 := by
    intro q hq
    rcases is_on_board_iff.mp hq with ⟨hx1, hy1, hy2, hx2⟩
    have hylt : q.2.toNat < b.length := by simp only [boardHeight] at hy2; omega
    have hxlt : q.1.toNat < (b.getD q.2.toNat []).length := by
      rw [hwf.2 _ (getD_mem b q.2.toNat [] hylt)]
      simp only [boardWidth] at hx2 ⊢
      omega
    refine hcells _ (getD_mem b q.2.toNat [] hylt) _ ?_
    rw [cell]
    exact getD_mem _ q.1.toNat 0 hxlt
  rcases get_flippedF_isSome hloc (Or.inl h0) with ⟨L, hL⟩
  rw [get_flipped, hL] at hf
  rcases collectDirs_mem dirList L hL f hf with ⟨d, hd, lf, hw, hflf⟩
  rcases dirWalk_spec hd hw with hnil | ⟨hd0, k, hl, hcellsk, hterm, hcellp⟩
  · rw [hnil] at hflf
    exact absurd hflf (List.not_mem_nil f)
  · rw [hl] at hflf
    rcases List.mem_map.mp hflf with ⟨i, hi, hfi⟩
    have hik : i < k := List.mem_range.mp hi
    refine ⟨d, hd, hd0, i + 1, k + 1, by omega, by omega, hfi.symm, hterm, hcellp, ?_⟩
    intro i2 hi2a hi2b
    rcases Nat.exists_eq_add_of_le hi2a with ⟨i3, rfl⟩
    rcases hcellsk i3 (by omega) with ⟨hob3, h03, hp3⟩
    rw [show 1 + i3 = i3 + 1 by omega]
    refine ⟨hob3, ?_⟩
    rcases hcellval (stepN loc d (i3 + 1)) hob3 with hc | hc | hc <;>
      rcases hp with rfl | rfl <;> omega

theorem claim_C5_witness :
    ((2, 1) : Coord) ∈ get_flipped (init_board 4) 1 (3, 1) ∧
    (∃ d ∈ dirList, d ≠ ((0 : Int), (0 : Int)) ∧ ∃ j k : Nat, 1 ≤ j ∧ j < k ∧
      ((2, 1) : Coord) = stepN (3, 1) d j ∧
      is_on_board (init_board 4) (stepN (3, 1) d k) = true ∧
      cell (init_board 4) (stepN (3, 1) d k) = 1 ∧
      ∀ i, 1 ≤ i → i < k → is_on_board (init_board 4) (stepN (3, 1) d i) = true ∧
        cell (init_board 4) (stepN (3, 1) d i) = 3 - 1) :=
  ⟨by decide, claim_C5 ⟨by decide, by decide⟩ (Or.inl rfl) (by decide) (by decide) (by decide) (by decide)⟩

/-- Claim C6: the move `get_best_move` returns is an available move of maximal
backed-up score; among equal-scoring candidates its location class
(3 corner, 2 edge, 1 interior) is maximal, and among candidates that tie on
both score and class it is the one encountered first in the row-major scan
order that generates the move list. -/
theorem claim_C6 {b : Board} {p : Int} {plies : Nat} {r : Coord}
    (h : get_best_move b p plies = some r) :
    r ∈ get_available_moves b p ∧
    ∀ m ∈ get_available_moves b p,
      (negamax (plies - 1) true (play_move (copy_board b) m p) p ⊥ ⊤ ≤
        negamax (plies - 1) true (play_move (copy_board b) r p) p ⊥ ⊤) ∧
      (negamax (plies - 1) true (play_move (copy_board b) m p) p ⊥ ⊤ =
        negamax (plies - 1) true (play_move (copy_board b) r p) p ⊥ ⊤ →
        get_location_type m (boardHeight b) ≤ get_location_type r (boardHeight b) ∧
        (get_location_type m (boardHeight b) = get_location_type r (boardHeight b) →
          r = m ∨ scanBefore r m)) := by
  rcases havail : get_available_moves b p with _ | ⟨m1, rest⟩
  · rw [get_best_move, havail] at h
    exact Option.noConfusion h
  · have hpw := get_available_moves_pairwise b p
    rw [havail, List.pairwise_cons] at hpw
    rw [get_best_move, havail, List.foldl_cons, bestStep_start] at h
    rcases bestFold_inv (boardHeight b)
      (fun m => negamax (plies - 1) true (play_move (copy_board b) m p) p ⊥ ⊤)
      rest m1 hpw.2 hpw.1 with ⟨r2, hfold, hmem, hmax, htype, _, horder⟩
    rw [hfold] at h
    have h3 : some r2 = some r := h
    have h2 : r2 = r := Option.some.inj h3
    subst h2
    constructor
    · rcases hmem with rfl | hmem2
      · exact List.mem_cons_self r2 rest
      · exact List.mem_cons_of_mem m1 hmem2
    · intro m hm
      have hm2 : m = m1 ∨ m ∈ rest := List.mem_cons.mp hm
      exact ⟨hmax m hm2, fun htie => ⟨htype m hm2 htie, fun hty => horder m hm2 htie hty⟩⟩

theorem claim_C6_witness :
    get_best_move (init_board 4) 1 1 = some ((2 : Int), (0 : Int)) ∧
    (((2 : Int), (0 : Int)) ∈ get_available_moves (init_board 4) 1 ∧
    ∀ m ∈ get_available_moves (init_board 4) 1,
      (negamax 0 true (play_move (copy_board (init_board 4)) m 1) 1 ⊥ ⊤ ≤
        negamax 0 true (play_move (copy_board (init_board 4)) ((2 : Int), (0 : Int)) 1) 1 ⊥ ⊤) ∧
      (negamax 0 true (play_move (copy_board (init_board 4)) m 1) 1 ⊥ ⊤ =
        negamax 0 true (play_move (copy_board (init_board 4)) ((2 : Int), (0 : Int)) 1) 1 ⊥ ⊤ →
        get_location_type m (boardHeight (init_board 4)) ≤
          get_location_type ((2 : Int), (0 : Int)) (boardHeight (init_board 4)) ∧
        (get_location_type m (boardHeight (init_board 4)) =
          get_location_type ((2 : Int), (0 : Int)) (boardHeight (init_board 4)) →
          ((2 : Int), (0 : Int)) = m ∨ scanBefore ((2 : Int), (0 : Int)) m))) :=
  ⟨by decide, @claim_C6 (init_board 4) 1 1 ((2 : Int), (0 : Int)) (by decide)⟩

/-- Claim C7: playing on an empty on-board cell raises the mover's disc count
by exactly one (the placement) plus the size of the flip set computed on the
pre-move board; the flip list has no duplicates, so its length is the size of
the flip set. -/
theorem claim_C7 {b : Board} {p : Int} {loc : Coord}
    (hwf : WF b) (hp : p = 1 ∨ p = 2) (hloc : is_on_board b loc = true)
    (h0 : cell b loc = 0) :
    get_state_value (play_move b loc p) p =
      get_state_value b p + (1 + (get_flipped b p loc).length) ∧
    (get_flipped b p loc).Nodup := by
  have hp0 : p ≠ 0 := by rcases hp with rfl | rfl <;> decide
  have hob1 : is_on_board (setCell b loc p) loc = true := by
    rw [is_on_board_setCell]
    exact hloc
  have hcp1 : cell (setCell b loc p) loc = p := cell_setCell_self p hwf hloc
  rcases get_flippedF_isSome hob1 (Or.inr hcp1) with ⟨L, hL⟩
  have hgf1 : get_flipped (setCell b loc p) p loc = L := by
    rw [get_flipped, hL]
    rfl
  have hpre : get_flipped b p loc = L := by
    rw [← get_flipped_post hwf hloc h0 hp0, hgf1]
  have hprops : ∀ f ∈ L, is_on_board (setCell b loc p) f = true ∧
      cell (setCell b loc p) f ≠ p := by
    intro f hf
    rcases get_flippedF_mem hL hf with ⟨h1, _, h3, _⟩
    exact ⟨h1, h3⟩
  have hnd : L.Nodup := get_flippedF_nodup hL
  have hstep := get_state_value_setCell p p hwf hloc
  rw [if_neg (by rw [h0]; exact Ne.symm hp0), if_pos rfl, Nat.add_zero] at hstep
  constructor
  · simp only [play_move]
    rw [hgf1, foldl_setCell_count p L (WF_setCell loc p hwf) hnd hprops, hstep, hpre]
    omega
  · rw [hpre]
    exact hnd

theorem claim_C7_witness :
    WF (init_board 4) ∧ cell (init_board 4) (3, 1) = 0 ∧
    (get_state_value (play_move (init_board 4) (3, 1) 1) 1 =
      get_state_value (init_board 4) 1 + (1 + (get_flipped (init_board 4) 1 (3, 1)).length) ∧
    (get_flipped (init_board 4) 1 (3, 1)).Nodup) :=
  ⟨⟨by decide, by decide⟩, by decide,
    claim_C7 ⟨by decide, by decide⟩ (Or.inl rfl) (by decide) (by decide)⟩

/-- Claim C8: `get_best_move` returns the `none` sentinel exactly when the
player has no available move; otherwise the returned coordinate is one of the
available moves — an on-board, currently-empty cell whose placement flips at
least one opposing disc. -/
theorem claim_C8 {b : Board} {p : Int} {plies : Nat}
    (hp : p = 1 ∨ p = 2) (hplies : 1 ≤ plies) :
    (get_best_move b p plies = none ↔ get_available_moves b p = []) ∧
    ∀ m : Coord, get_best_move b p plies = some m →
      m ∈ get_available_moves b p ∧ is_on_board b m = true ∧ cell b m = 0 ∧
        get_flipped b p m ≠ [] := by
  rcases havail : get_available_moves b p with _ | ⟨m1, rest⟩
  · refine ⟨iff_of_true ?_ rfl, ?_⟩
    · rw [get_best_move, havail]
      rfl
    · intro m hm
      rw [get_best_move, havail] at hm
      exact Option.noConfusion hm
  · have hpw := get_available_moves_pairwise b p
    rw [havail, List.pairwise_cons] at hpw
    rcases bestFold_inv (boardHeight b)
      (fun m => negamax (plies - 1) true (play_move (copy_board b) m p) p ⊥ ⊤)
      rest m1 hpw.2 hpw.1 with ⟨r2, hfold, hmem, _, _, _, _⟩
    have hres : get_best_move b p plies = some r2 := by
      rw [get_best_move, havail, List.foldl_cons, bestStep_start, hfold]
    refine ⟨iff_of_false (by rw [hres]; exact fun hc => Option.noConfusion hc)
      (fun hc => List.noConfusion hc), ?_⟩
    intro m hm
    rw [hres] at hm
    have hmr : r2 = m := Option.some.inj hm
    rw [← hmr]
    have hmem3 : r2 ∈ m1 :: rest := by
      rcases hmem with rfl | hmem4
      · exact List.mem_cons_self r2 rest
      · exact List.mem_cons_of_mem m1 hmem4
    have hmem2 : r2 ∈ get_available_moves b p := by
      rw [havail]
      exact hmem3
    exact ⟨hmem3, avail_on_board hmem2, avail_cell_empty hmem2, avail_flipped_ne hmem2⟩

theorem claim_C8_witness :
    ((1 : Int) = 1 ∨ (1 : Int) = 2) ∧ 1 ≤ 1 ∧
    ((get_best_move (init_board 4) 1 1 = none ↔ get_available_moves (init_board 4) 1 = []) ∧
    ∀ m : Coord, get_best_move (init_board 4) 1 1 = some m →
      m ∈ get_available_moves (init_board 4) 1 ∧ is_on_board (init_board 4) m = true ∧
        cell (init_board 4) m = 0 ∧ get_flipped (init_board 4) 1 m ≠ []) :=
  ⟨Or.inl rfl, le_rfl, claim_C8 (Or.inl rfl) le_rfl⟩

/-- Claim C9: constructing an engine copies the caller's grid (the two-level
list copy preserves the grid's value, and the fresh object is a new heap
cell), and no later mutation made by the search touches any pre-existing heap
cell: `pick_move` leaves every grid of the caller's store — in particular the
snapshot it was given — unchanged, a `play_move` on the freshly constructed
engine leaves them unchanged, and a `play_move` on any child produced by
`get_children` leaves both them and the parent engine's grid unchanged. -/
theorem claim_C9 (σ : Store) (g : Board) (i : Nat) (p q q2 : Int) (plies : Nat) :
    copy_board g = g ∧
    (∀ k, k < σ.length → (storePickMove σ i p plies).1.getD k [] = σ.getD k []) ∧
    (∀ loc : Coord, ∀ k, k < σ.length →
      (storePlayMove (storeNewFrom σ i).1 (storeNewFrom σ i).2 loc q).getD k [] =
        σ.getD k []) ∧
    (∀ j2 ∈ (storeGetChildren (storeNewFrom σ i).1 (storeNewFrom σ i).2 q).2,
      ∀ loc : Coord, ∀ k, k < (storeNewFrom σ i).1.length →
        (storePlayMove (storeGetChildren (storeNewFrom σ i).1 (storeNewFrom σ i).2 q).1
          j2 loc q2).getD k [] = (storeNewFrom σ i).1.getD k []) := by
  refine ⟨by simp [copy_board], storePickMove_preserves σ i p plies, ?_, ?_⟩
  · intro loc k hk
    rw [storePlayMove]
    simp only [storeNewFrom]
    rw [getD_set_ne _ (by omega), getD_append_left _ _ _ _ hk]
  · intro j2 hj2 loc k hk
    have hidx := storeGetChildren_indices (storeNewFrom σ i).1 (storeNewFrom σ i).2 q j2 hj2
    rcases storeGetChildren_preserves (storeNewFrom σ i).1 (storeNewFrom σ i).2 q
      with ⟨_, hg⟩
    rw [storePlayMove, getD_set_ne _ (by omega), hg k hk]

theorem claim_C9_witness :
    (storePickMove [init_board 4] 0 1 1).1.getD 0 [] = [init_board 4].getD 0 [] :=
  (claim_C9 [init_board 4] (init_board 4) 0 1 1 1 1).2.1 0 (by decide)

/-- Claim C10: `play_move` changes only the placement cell and the cells of
the flip list it computes (each set to `player`); all other on-board cells
and the board's dimensions are untouched. -/
theorem claim_C10 {b : Board} {p : Int} {loc : Coord}
    (hwf : WF b) (hp : p = 1 ∨ p = 2) (hloc : is_on_board b loc = true) :
    boardWidth (play_move b loc p) = boardWidth b ∧
    boardHeight (play_move b loc p) = boardHeight b ∧
    cell (play_move b loc p) loc = p ∧
    (∀ f ∈ get_flipped (setCell b loc p) p loc, cell (play_move b loc p) f = p) ∧
    ∀ q : Coord, is_on_board b q = true → q ≠ loc →
      q ∉ get_flipped (setCell b loc p) p loc → cell (play_move b loc p) q = cell b q := by
  have hob1 : is_on_board (setCell b loc p) loc = true := by
    rw [is_on_board_setCell]
    exact hloc
  have hcp1 : cell (setCell b loc p) loc = p := cell_setCell_self p hwf hloc
  rcases get_flippedF_isSome hob1 (Or.inr hcp1) with ⟨L, hL⟩
  have hgf1 : get_flipped (setCell b loc p) p loc = L := by
    rw [get_flipped, hL]
    rfl
  have hobs : ∀ f ∈ L, is_on_board (setCell b loc p) f = true :=
    fun f hf => (get_flippedF_mem hL hf).1
  have hnd : L.Nodup := get_flippedF_nodup hL
  have hplay : play_move b loc p = L.foldl (fun bb f => setCell bb f p) (setCell b loc p) := by
    simp only [play_move]
    rw [hgf1]
  refine ⟨?_, ?_, ?_, ?_, ?_⟩
  · rw [hplay, boardWidth_foldl_setCell, boardWidth_setCell]
  · rw [hplay, boardHeight_foldl_setCell, boardHeight_setCell]
  · rw [hplay, cell_foldl_not_mem p L _ loc hob1 hobs
      (fun hc => (get_flippedF_mem hL hc).2.2.2 rfl)]
    exact hcp1
  · intro f hf
    rw [hgf1] at hf
    rw [hplay]
    exact cell_foldl_mem p L (WF_setCell loc p hwf) hobs hnd f hf
  · intro q hq hql hqL
    rw [hgf1] at hqL
    rw [hplay, cell_foldl_not_mem p L _ q (by rw [is_on_board_setCell]; exact hq) hobs hqL]
    exact cell_setCell_ne p hloc hq hql

theorem claim_C10_witness :
    WF (init_board 4) ∧ ((1 : Int) = 1 ∨ (1 : Int) = 2) ∧
    is_on_board (init_board 4) (3, 1) = true ∧
    cell (play_move (init_board 4) (3, 1) 1) (3, 1) = 1 :=
  ⟨⟨by decide, by decide⟩, Or.inl rfl, by decide,
    (claim_C10 ⟨by decide, by decide⟩ (Or.inl rfl) (by decide)).2.2.1⟩

end Claims

end OthelloGame
